import Mathlib

/-!
# MapVersionControl: a shallow embedding of the versioning engine

The definitions below follow `src/MapVersionControl.js` function by function.

Conventions of the embedding.

* A JavaScript value that the program only ever passes through `JSON.stringify`
  (device options, custom-asset payloads, the remaining fields of a tile or
  asset) is represented by its JSON text, a `String`.  Under this
  representation the `JSON.stringify`/`JSON.parse` round trip performed by
  `storage.set`/`storage.get` is the identity.
* `localStorage` holds three kinds of key (`mapvc_current_project`,
  `mapvc_projects`, `mapvc_project_<name>`); they never collide, so the store
  is a record with one component per kind.  Project records are found by the
  key computed from their own `name`, as `saveProject` writes them.
* What the program asks of its environment in one call (`Date.now()`,
  `Math.random()`, whether `localStorage.setItem` succeeds) is an explicit
  argument `Env`.
* An operation returns `none` when it raises an uncaught `TypeError`; in every
  engine operation that can only happen before the first side effect (reading
  `head` or `commits` of a `currentBranch` that is not a branch).
* `updateGUI()`, called last by `stashPop` and `deleteStash`, only reads the
  store and rewrites the panel; it is presentation, comes after all effects of
  the operation, and is not part of the state modelled here.
* Indices are integers (`deleteStash` is called with `parseInt` of a position).
* `buildGitGraph` is split into the values its rendering loop computes
  (`graphNodes`), the map it builds first (`commitTree`) and the markup
  (`graphRows`); the string it returns is given by its UTF-16 code units, so
  that `substring(0, 7)` is exact; `new Date(t).toLocaleString()` is a
  parameter.
* A write that the store rejects (`Env.setOk = false`) leaves the store as it
  was; no caller reads the result of `storage.set`.
-/

namespace MapVersionControl

/-! ## Data model -/

/-- One terrain tile of the live document: the three fields `goToState` reads
    and the JSON text of the remaining ones. -/
structure Tile where
  depth : Int
  x : Int
  y : Int
  rest : String
  deriving DecidableEq, Repr

/-- A device as `getMap` records it. -/
structure Device where
  id : String
  deviceTypeId : String
  options : String
  x : Int
  y : Int
  deriving DecidableEq, Repr

/-- A wire as `getMap` records it (and as the host keeps it). -/
structure Wire where
  id : String
  startConnection : String
  endConnection : String
  startDeviceId : String
  endDeviceId : String
  deriving DecidableEq, Repr

/-- A custom asset: its `id`, the JSON text of its `data` payload and the JSON
    text of its remaining fields. -/
structure CustomAsset where
  id : String
  data : String
  rest : String
  deriving DecidableEq, Repr

/-- The value returned by `getMap` and stored in commits and stash entries. -/
structure Snapshot where
  tiles : List Tile
  devices : List Device
  wires : List Wire
  customAssets : List CustomAsset
  deriving DecidableEq, Repr

/-- A device of the live document (`worldManager.devices.allDevices`):
    `options` is the JSON text of the host's options object. -/
structure LiveDevice where
  id : String
  deviceOptionId : String
  options : String
  x : Int
  y : Int
  deriving DecidableEq, Repr

/-- The live document the host owns.  `wiresPlaced` counts the wires the host
    has created so far; it is host-internal and not visible to `getMap`. -/
structure LiveDoc where
  tiles : List Tile
  devices : List LiveDevice
  wires : List Wire
  customAssets : List CustomAsset
  wiresPlaced : Nat
  deriving DecidableEq, Repr

structure Commit where
  id : String
  message : String
  timestamp : Nat
  parent : Option String
  state : Snapshot
  deriving DecidableEq, Repr

structure Branch where
  name : String
  commits : List Commit
  head : Option String
  deriving DecidableEq, Repr

structure StashEntry where
  id : String
  message : String
  timestamp : Nat
  state : Snapshot
  deriving DecidableEq, Repr

/-- A project record.  `branches` is the JavaScript object `project.branches`:
    its own properties in the order in which JavaScript enumerates them
    (array-index keys first, ascending, then the other keys as inserted). -/
structure Project where
  name : String
  currentBranch : String
  branches : List (String × Branch)
  stash : List StashEntry
  deriving DecidableEq, Repr

/-- The persisted store: the value under `mapvc_current_project`, the value
    under `mapvc_projects`, and the project records under
    `mapvc_project_<name>`. -/
structure Storage where
  currentProject : Option String
  projects : Option (List String)
  records : List Project
  deriving DecidableEq, Repr

/-- A message sent with `api.net.send`. -/
inductive Msg where
  | removeDevice (id : String)
  | removeTerrain (depth x y : Int)
  | removeWire (id : String)
  | removeCustomAsset (id : String)
  | addCustomAsset (data id rest : String)
  | placeDevice (deviceTypeId id options : String) (x y : Int)
  | placeTerrain (tile : Tile)
  | placeWire (endConnection endDevice startConnection startDevice : String)
  deriving DecidableEq, Repr

/-- A call of `api.notification.error` or `api.notification.success`. -/
inductive Note where
  | error (message : String)
  | success (message : String)
  deriving DecidableEq, Repr

/-- What one call of an engine operation obtains from its environment. -/
structure Env where
  /-- The value of `Date.now()` used in the id. -/
  nowId : Nat
  /-- The text `Math.random().toString(36).substr(2)`. -/
  rand : String
  /-- The value of `Date.now()` used as timestamp. -/
  nowStamp : Nat
  /-- Whether `localStorage.setItem` returns normally. -/
  setOk : Bool
  deriving DecidableEq, Repr

/-- The host's part in creating items.  `decodeOptions` is how the host reads
    the options text of a `PLACE_DEVICE` message into its options object;
    `wireId n` is the id the host gives to the `n`-th wire it creates. -/
structure Host where
  decodeOptions : String → String
  wireId : Nat → String

/-- Everything an engine operation reads or changes. -/
structure World where
  store : Storage
  doc : LiveDoc
  sent : List Msg
  notes : List Note
  deriving DecidableEq, Repr

/-! ## Storage -/

def STORAGE_PREFIX : String := "mapvc_"

def CURRENT_PROJECT_KEY : String := STORAGE_PREFIX ++ "current_project"

def PROJECTS_KEY : String := STORAGE_PREFIX ++ "projects"

def getProjectKey (projectName : String) : String :=
  STORAGE_PREFIX ++ "project_" ++ projectName

/-- The record found by `storage.get(key)` for a project key. -/
def getRec : List Project → String → Option Project
  | [], _ => none
  | p :: ps, key => if getProjectKey p.name = key then some p else getRec ps key

/-- The records after `storage.set(getProjectKey(q.name), q)` succeeded. -/
def setRec : List Project → Project → List Project
  | [], q => [q]
  | p :: ps, q =>
    if getProjectKey p.name = getProjectKey q.name then q :: ps else p :: setRec ps q

def getCurrentProject (s : Storage) : Option String := s.currentProject

/-- The default of `getProject`. -/
def defaultProject (projectName : String) : Project :=
  { name := projectName
    currentBranch := "main"
    branches := [("main", { name := "main", commits := [], head := none })]
    stash := [] }

def getProject (s : Storage) (projectName : String) : Project :=
  match getRec s.records (getProjectKey projectName) with
  | some p => p
  | none => defaultProject projectName

/-- The store after `saveProject(project)`; `ok` tells whether `setItem`
    succeeded (the result of `storage.set` is ignored by the caller). -/
def saveProject (ok : Bool) (s : Storage) (project : Project) : Storage :=
  if ok then { s with records := setRec s.records project } else s

/-! ## JavaScript helpers -/

/-- The names every plain object inherits from `Object.prototype`. -/
def objectPrototypeKeys : List String :=
  ["constructor", "__defineGetter__", "__defineSetter__", "hasOwnProperty",
   "__lookupGetter__", "__lookupSetter__", "isPrototypeOf", "propertyIsEnumerable",
   "toString", "valueOf", "__proto__", "toLocaleString"]

/-- The result of the property read `project.branches[name]`. -/
inductive PropLookup where
  | own (b : Branch)
  | inherited
  | undefined
  deriving DecidableEq, Repr

def ownBranch : List (String × Branch) → String → Option Branch
  | [], _ => none
  | (k, b) :: bs, name => if k = name then some b else ownBranch bs name

def getBranch (branches : List (String × Branch)) (name : String) : PropLookup :=
  match ownBranch branches name with
  | some b => PropLookup.own b
  | none => if name ∈ objectPrototypeKeys then PropLookup.inherited else PropLookup.undefined

/-- Truthiness of a property read: branch objects and inherited members are
    truthy, `undefined` is not. -/
def PropLookup.truthy : PropLookup → Bool
  | PropLookup.own _ => true
  | PropLookup.inherited => true
  | PropLookup.undefined => false

/-- The number a property key stands for when it is an array index: a
    canonical decimal numeral below `2^32 - 1`.  A JavaScript object lists such
    keys first, in ascending order, before its other keys. -/
def arrayIndex? (name : String) : Option Nat :=
  let cs := name.data
  if cs ≠ [] ∧ cs.all Char.isDigit ∧ (cs = ['0'] ∨ cs.head? ≠ some '0') then
    let n := cs.foldl (fun a c => 10 * a + (c.toNat - 48)) 0
    if n < 4294967295 then some n else none
  else none

/-- The own properties with the value under an existing key replaced. -/
def replaceBranch : List (String × Branch) → String → Branch → List (String × Branch)
  | [], _, _ => []
  | (k, old) :: bs, name, b =>
    if k = name then (k, b) :: bs else (k, old) :: replaceBranch bs name b

/-- The own properties after a new key that is the array index `n` is added:
    it goes before the first key that is a larger index or no index at all. -/
def insertIndexKey (n : Nat) (name : String) (b : Branch) :
    List (String × Branch) → List (String × Branch)
  | [] => [(name, b)]
  | (k, v) :: bs =>
    match arrayIndex? k with
    | some m =>
      if n < m then (name, b) :: (k, v) :: bs else (k, v) :: insertIndexKey n name b bs
    | none => (name, b) :: (k, v) :: bs

/-- The own properties after the assignment `branches[name] = b`, in the order
    in which JavaScript enumerates them. -/
def setBranch (bs : List (String × Branch)) (name : String) (b : Branch) :
    List (String × Branch) :=
  match ownBranch bs name with
  | some _ => replaceBranch bs name b
  | none =>
    match arrayIndex? name with
    | some n => insertIndexKey n name b bs
    | none => bs ++ [(name, b)]

/-- JavaScript `s || dflt` for a string (an absent argument behaves as `""`). -/
def orDefault (s dflt : String) : String := if s = "" then dflt else s

/-- The current project name when it is truthy (`!projectName` is false). -/
def truthyName : Option String → Option String
  | none => none
  | some n => if n = "" then none else some n

/-- Truthiness of `branch.head`. -/
def headTruthy : Option String → Bool
  | none => false
  | some h => h != ""

def digit36 (d : Nat) : Char :=
  if d < 10 then Char.ofNat (48 + d) else Char.ofNat (87 + d)

def toString36Aux : Nat → Nat → List Char → List Char
  | 0, _, acc => acc
  | fuel + 1, n, acc =>
    if n < 36 then digit36 n :: acc else toString36Aux fuel (n / 36) (digit36 (n % 36) :: acc)

/-- The text of `n.toString(36)` for a natural number. -/
def toString36 (n : Nat) : String := String.mk (toString36Aux (n + 1) n [])

/-- The id built by `Date.now().toString(36) + Math.random().toString(36).substr(2)`. -/
def newId (e : Env) : String := toString36 e.nowId ++ e.rand

def replaceFirstChars (pat rep : List Char) : List Char → List Char
  | [] => if pat = [] then rep else []
  | c :: cs =>
    if pat.isPrefixOf (c :: cs) then rep ++ (c :: cs).drop pat.length
    else c :: replaceFirstChars pat rep cs

/-- The text of `s.replace(pat, rep)` for a string pattern: the first occurrence
    only. -/
def jsReplace (s pat rep : String) : String :=
  String.mk (replaceFirstChars pat.data rep.data s.data)

/-- The options text `getMap` records for a device. -/
def encodeOptions (optionsJson : String) : String :=
  jsReplace optionsJson "\"trackedItemId\":null" "\"trackedItemId\":undefined"

/-- The array after `arr.splice(index, 1)` for an integer `index`. -/
def splice1 {α : Type} (arr : List α) (index : Int) : List α :=
  let len : Int := arr.length
  let start : Int := if index < 0 then max (len + index) 0 else min index len
  arr.eraseIdx start.toNat

/-! ## Snapshot codec -/

def getMap (doc : LiveDoc) : Snapshot :=
  { tiles := doc.tiles
    devices := doc.devices.map fun device =>
      { id := device.id
        deviceTypeId := device.deviceOptionId
        options := encodeOptions device.options
        x := device.x
        y := device.y }
    wires := doc.wires.map fun wire =>
      { id := wire.id
        startConnection := wire.startConnection
        endConnection := wire.endConnection
        startDeviceId := wire.startDeviceId
        endDeviceId := wire.endDeviceId }
    customAssets := doc.customAssets }

/-- The messages `goToState(state)` sends, in order, when the live document is
    `doc`. -/
def goToState (doc : LiveDoc) (state : Snapshot) : List Msg :=
  let map := getMap doc
  map.devices.map (fun device => Msg.removeDevice device.id)
    ++ map.tiles.map (fun tile => Msg.removeTerrain tile.depth tile.x tile.y)
    ++ map.wires.map (fun wire => Msg.removeWire wire.id)
    ++ map.customAssets.map (fun customAsset => Msg.removeCustomAsset customAsset.id)
    ++ state.customAssets.map
        (fun customAsset => Msg.addCustomAsset customAsset.data customAsset.id customAsset.rest)
    ++ state.devices.map
        (fun device => Msg.placeDevice device.deviceTypeId device.id device.options device.x device.y)
    ++ state.tiles.map (fun tile => Msg.placeTerrain tile)
    ++ state.wires.map
        (fun wire => Msg.placeWire wire.endConnection wire.endDeviceId
          wire.startConnection wire.startDeviceId)

/-- Modelled from the spec: the live-document collaborator of section 6, which is
    not part of the repository.  A removal deletes the items with the given
    id (or position) and is a no-op when there is none; a creation adds the
    record the message carries.  `PLACE_WIRE` carries no id, so the host names
    the new wire itself. -/
def Host.perform (H : Host) (d : LiveDoc) : Msg → LiveDoc
  | Msg.removeDevice id => { d with devices := d.devices.filter fun v => v.id ≠ id }
  | Msg.removeTerrain depth x y =>
    { d with tiles := d.tiles.filter fun t => ¬ (t.depth = depth ∧ t.x = x ∧ t.y = y) }
  | Msg.removeWire id => { d with wires := d.wires.filter fun v => v.id ≠ id }
  | Msg.removeCustomAsset id =>
    { d with customAssets := d.customAssets.filter fun v => v.id ≠ id }
  | Msg.addCustomAsset data id rest =>
    { d with customAssets := d.customAssets ++ [{ id := id, data := data, rest := rest }] }
  | Msg.placeDevice deviceTypeId id options x y =>
    { d with devices := d.devices ++
        [{ id := id, deviceOptionId := deviceTypeId, options := H.decodeOptions options,
           x := x, y := y }] }
  | Msg.placeTerrain tile => { d with tiles := d.tiles ++ [tile] }
  | Msg.placeWire endConnection endDevice startConnection startDevice =>
    { d with
      wires := d.wires ++
        [{ id := H.wireId d.wiresPlaced, startConnection := startConnection,
           endConnection := endConnection, startDeviceId := startDevice,
           endDeviceId := endDevice }]
      wiresPlaced := d.wiresPlaced + 1 }

def Host.performAll (H : Host) (d : LiveDoc) (msgs : List Msg) : LiveDoc :=
  msgs.foldl H.perform d

/-! ## World helpers -/

def World.notify (w : World) (n : Note) : World := { w with notes := w.notes ++ [n] }

/-- The world after `goToState(state)`: the messages are logged and the host
    performs them. -/
def World.apply (H : Host) (w : World) (state : Snapshot) : World :=
  let msgs := goToState w.doc state
  { w with sent := w.sent ++ msgs, doc := H.performAll w.doc msgs }

def World.save (w : World) (e : Env) (project : Project) : World :=
  { w with store := saveProject e.setOk w.store project }

/-! ## Engine operations -/

def commit (e : Env) (message : String) (w : World) : Option World :=
  match truthyName (getCurrentProject w.store) with
  | none => some (w.notify (Note.error "No project selected"))
  | some projectName =>
    let project := getProject w.store projectName
    match getBranch project.branches project.currentBranch with
    | PropLookup.own branch =>
      let map := getMap w.doc
      let commitObj : Commit :=
        { id := newId e
          message := orDefault message "Untitled commit"
          timestamp := e.nowStamp
          parent := branch.head
          state := map }
      let branch2 : Branch :=
        { branch with commits := branch.commits ++ [commitObj], head := some commitObj.id }
      let project2 : Project :=
        { project with branches := setBranch project.branches project.currentBranch branch2 }
      some ((w.save e project2).notify (Note.success ("Committed: " ++ commitObj.message)))
    | _ => none

def checkout (H : Host) (e : Env) (commitId : String) (w : World) : Option World :=
  match truthyName (getCurrentProject w.store) with
  | none => some (w.notify (Note.error "No project selected"))
  | some projectName =>
    let project := getProject w.store projectName
    match getBranch project.branches project.currentBranch with
    | PropLookup.own branch =>
      match branch.commits.find? (fun c => c.id = commitId) with
      | none => some (w.notify (Note.error "Commit not found"))
      | some commitObj =>
        let w1 := w.apply H commitObj.state
        let branch2 : Branch := { branch with head := some commitObj.id }
        let project2 : Project :=
          { project with branches := setBranch project.branches project.currentBranch branch2 }
        some ((w1.save e project2).notify
          (Note.success ("Checked out: " ++ commitObj.message)))
    | _ => none

def createBranch (e : Env) (branchName : String) (w : World) : Option World :=
  match truthyName (getCurrentProject w.store) with
  | none => some (w.notify (Note.error "No project selected"))
  | some projectName =>
    let project := getProject w.store projectName
    if (getBranch project.branches branchName).truthy then
      some (w.notify (Note.error "Branch already exists"))
    else
      match getBranch project.branches project.currentBranch with
      | PropLookup.own currentBranch =>
        let project2 : Project :=
          { project with
            branches := setBranch project.branches branchName
              { name := branchName, commits := currentBranch.commits,
                head := currentBranch.head } }
        some ((w.save e project2).notify
          (Note.success ("Created branch: " ++ branchName)))
      | _ => none

def switchBranch (H : Host) (e : Env) (branchName : String) (w : World) : Option World :=
  match truthyName (getCurrentProject w.store) with
  | none => some (w.notify (Note.error "No project selected"))
  | some projectName =>
    let project := getProject w.store projectName
    if ¬ (getBranch project.branches branchName).truthy then
      some (w.notify (Note.error "Branch not found"))
    else
      let project2 : Project := { project with currentBranch := branchName }
      let w1 : World :=
        match getBranch project.branches branchName with
        | PropLookup.own branch =>
          if headTruthy branch.head then
            match branch.commits.find? (fun c => some c.id = branch.head) with
            | some headCommit => w.apply H headCommit.state
            | none => w
          else w
        | _ => w
      some ((w1.save e project2).notify
        (Note.success ("Switched to branch: " ++ branchName)))

def stashSave (e : Env) (message : String) (w : World) : Option World :=
  match truthyName (getCurrentProject w.store) with
  | none => some (w.notify (Note.error "No project selected"))
  | some projectName =>
    let project := getProject w.store projectName
    let map := getMap w.doc
    let stashEntry : StashEntry :=
      { id := newId e
        message := orDefault message "WIP"
        timestamp := e.nowStamp
        state := map }
    let project2 : Project := { project with stash := stashEntry :: project.stash }
    some ((w.save e project2).notify (Note.success ("Stashed: " ++ stashEntry.message)))

def stashPop (H : Host) (e : Env) (w : World) : Option World :=
  match truthyName (getCurrentProject w.store) with
  | none => some (w.notify (Note.error "No project selected"))
  | some projectName =>
    let project := getProject w.store projectName
    match project.stash with
    | [] => some (w.notify (Note.error "No stash entries"))
    | stashEntry :: rest =>
      let w1 := w.apply H stashEntry.state
      let project2 : Project := { project with stash := rest }
      some ((w1.save e project2).notify
        (Note.success ("Applied stash: " ++ stashEntry.message)))

def deleteStash (e : Env) (index : Int) (w : World) : Option World :=
  match truthyName (getCurrentProject w.store) with
  | none => some (w.notify (Note.error "No project selected"))
  | some projectName =>
    let project := getProject w.store projectName
    if index < 0 ∨ index ≥ (project.stash.length : Int) then
      some (w.notify (Note.error "Invalid stash index"))
    else
      -- an index in range always names an entry; the first case is never taken
      match project.stash.get? index.toNat with
      | none => none
      | some stashEntry =>
        let project2 : Project := { project with stash := splice1 project.stash index }
        some ((w.save e project2).notify
          (Note.success ("Deleted stash: " ++ stashEntry.message)))

/-! ## Sequences of calls -/

/-- Consecutive `commit` calls, each with its message and environment. -/
def commitAll : World → List (Env × String) → Option World
  | w, [] => some w
  | w, (e, m) :: calls => (commit e m w).bind fun w1 => commitAll w1 calls

/-- The commit objects a run of `commit` calls creates on a branch whose head
    is `parent`, for the live document captured as `state`. -/
def commitChain (state : Snapshot) : Option String → List (Env × String) → List Commit
  | _, [] => []
  | parent, (e, m) :: calls =>
    { id := newId e, message := orDefault m "Untitled commit", timestamp := e.nowStamp,
      parent := parent, state := state } :: commitChain state (some (newId e)) calls

/-- The head after a run of `commit` calls on a branch whose head was `head`. -/
def chainHead : Option String → List (Env × String) → Option String
  | head, [] => head
  | _, (e, _) :: calls => chainHead (some (newId e)) calls

/-- An engine operation with its arguments. -/
inductive Op where
  | commit (message : String)
  | checkout (commitId : String)
  | createBranch (branchName : String)
  | switchBranch (branchName : String)
  | stashSave (message : String)
  | stashPop
  | deleteStash (index : Int)
  deriving DecidableEq, Repr

def Op.run (H : Host) (e : Env) : Op → World → Option World
  | Op.commit m => MapVersionControl.commit e m
  | Op.checkout c => MapVersionControl.checkout H e c
  | Op.createBranch n => MapVersionControl.createBranch e n
  | Op.switchBranch n => MapVersionControl.switchBranch H e n
  | Op.stashSave m => MapVersionControl.stashSave e m
  | Op.stashPop => MapVersionControl.stashPop H e
  | Op.deleteStash i => MapVersionControl.deleteStash e i

/-- One user action: the handler runs; an uncaught exception leaves the world
    as it was. -/
def step (H : Host) (w : World) (call : Env × Op) : World :=
  (call.2.run H call.1 w).getD w

def runOps (H : Host) (w : World) (calls : List (Env × Op)) : World :=
  calls.foldl (step H) w

/-! ## Abbreviations used in the statements -/

/-- The commit object `commit(message)` builds. -/
def commitObjOf (e : Env) (m : String) (parent : Option String) (state : Snapshot) : Commit :=
  { id := newId e, message := orDefault m "Untitled commit", timestamp := e.nowStamp,
    parent := parent, state := state }

/-- The branch after `commits.push(c)` and `head = c.id`. -/
def Branch.pushCommit (b : Branch) (c : Commit) : Branch :=
  { b with commits := b.commits ++ [c], head := some c.id }

/-- The project with the branch under `name` replaced. -/
def Project.withBranch (p : Project) (name : String) (b : Branch) : Project :=
  { p with branches := setBranch p.branches name b }

/-! ## Concrete data for the worked instances -/

def emptyDoc : LiveDoc :=
  { tiles := [], devices := [], wires := [], customAssets := [], wiresPlaced := 0 }

/-- A store in which project "Demo" is registered and current but was never
    saved. -/
def demoStore : Storage :=
  { currentProject := some "Demo", projects := some ["Demo"], records := [] }

def demoWorld : World := { store := demoStore, doc := emptyDoc, sent := [], notes := [] }

/-- An environment whose clock reads `n` and whose store accepts writes. -/
def envAt (n : Nat) : Env := { nowId := n, rand := "r", nowStamp := n, setOk := true }

def mainBranch : Branch := { name := "main", commits := [], head := none }

/-- A host that reads options verbatim and numbers its wires. -/
def plainHost : Host := { decodeOptions := fun s => s, wireId := fun n => "hw" ++ toString36 n }

/-! ## Abbreviations for the snapshot codec -/

/-- Whether tile `t` lies at none of the positions of `ts`. -/
def offPositions (ts : List Tile) (t : Tile) : Bool :=
  ts.all fun u => ¬ (t.depth = u.depth ∧ t.x = u.x ∧ t.y = u.y)

/-- The wires the host creates for `ws`, the first of them being its `n`-th:
    the endpoints of `ws`, under the ids the host hands out. -/
def hostWires (H : Host) : Nat → List Wire → List Wire
  | _, [] => []
  | n, v :: vs => { v with id := H.wireId n } :: hostWires H (n + 1) vs

/-- Everything `PLACE_WIRE` carries of a wire. -/
def Wire.endpoints (v : Wire) : String × String × String × String :=
  (v.startConnection, v.endConnection, v.startDeviceId, v.endDeviceId)

/-- A snapshot with two devices joined by one wire. -/
def wiredState : Snapshot :=
  { tiles := [{ depth := 0, x := 1, y := 2, rest := "grass" }]
    devices :=
      [{ id := "d1", deviceTypeId := "button", options := "\x7b\x7d", x := 0, y := 0 },
       { id := "d2", deviceTypeId := "lamp", options := "\x7b\x7d", x := 5, y := 0 }]
    wires :=
      [{ id := "w1", startConnection := "pressed", endConnection := "turn on",
         startDeviceId := "d1", endDeviceId := "d2" }]
    customAssets := [] }

def wiredCommit : Commit :=
  { id := "c1", message := "wired", timestamp := 1, parent := none, state := wiredState }

/-- Project "Demo" with the single commit `wiredCommit` on `main`. -/
def wiredProject : Project :=
  { name := "Demo"
    currentBranch := "main"
    branches := [("main", { name := "main", commits := [wiredCommit], head := some "c1" })]
    stash := [] }

def wiredWorld : World :=
  { store := { currentProject := some "Demo", projects := some ["Demo"],
               records := [wiredProject] }
    doc := emptyDoc, sent := [], notes := [] }

/-- The world after the conditional `goToState` of `switchBranch` for branch `b`. -/
def afterHeadApply (H : Host) (w : World) (b : Branch) : World :=
  if headTruthy b.head then
    match b.commits.find? (fun c => some c.id = b.head) with
    | some headCommit => w.apply H headCommit.state
    | none => w
  else w

/-- The stash entry `stashSave(message)` builds. -/
def stashEntryOf (e : Env) (m : String) (state : Snapshot) : StashEntry :=
  { id := newId e, message := orDefault m "WIP", timestamp := e.nowStamp, state := state }

/-- A live document with two devices joined by one wire. -/
def wiredDoc : LiveDoc :=
  { tiles := [{ depth := 0, x := 1, y := 2, rest := "grass" }]
    devices :=
      [{ id := "d1", deviceOptionId := "button", options := "\x7b\x7d", x := 0, y := 0 },
       { id := "d2", deviceOptionId := "lamp", options := "\x7b\x7d", x := 5, y := 0 }]
    wires :=
      [{ id := "w1", startConnection := "pressed", endConnection := "turn on",
         startDeviceId := "d1", endDeviceId := "d2" }]
    customAssets := []
    wiresPlaced := 1 }

/-- The fresh project "Demo" selected, over the live document `wiredDoc`. -/
def stashWorld : World := { store := demoStore, doc := wiredDoc, sent := [], notes := [] }

/-- A stash entry holding the empty snapshot. -/
def oldEntry (n : Nat) : StashEntry :=
  { id := toString36 n, message := "old", timestamp := n,
    state := { tiles := [], devices := [], wires := [], customAssets := [] } }

/-- Project "Demo" with three stash entries. -/
def stashedWorld : World :=
  { store :=
      { currentProject := some "Demo", projects := some ["Demo"]
        records := [{ defaultProject "Demo" with stash := [oldEntry 1, oldEntry 2, oldEntry 3] }] }
    doc := emptyDoc, sent := [], notes := [] }

/-! ## The branch-head invariant and the effect of one call on a project -/

/-- The head of a branch is null or the id of a commit of its log. -/
def Branch.headOk (b : Branch) : Prop :=
  b.head = none ∨ ∃ c ∈ b.commits, b.head = some c.id

/-- Every branch of the project satisfies `Branch.headOk`. -/
def Project.headsOk (p : Project) : Prop := ∀ kb ∈ p.branches, kb.2.headOk

/-- The ways one engine call can change the persisted record of the current
    project (established for the code by `step_projStep`). -/
inductive ProjStep (p : Project) : Project → Prop where
  | same : ProjStep p p
  | commit (b : Branch) (c : Commit) :
      ownBranch p.branches p.currentBranch = some b → c.parent = b.head →
      ProjStep p (p.withBranch p.currentBranch (b.pushCommit c))
  | checkout (b : Branch) (c : Commit) :
      ownBranch p.branches p.currentBranch = some b → c ∈ b.commits →
      ProjStep p (p.withBranch p.currentBranch { b with head := some c.id })
  | createBranch (b : Branch) (name : String) :
      ownBranch p.branches p.currentBranch = some b →
      ownBranch p.branches name = none → name ∉ objectPrototypeKeys →
      ProjStep p (p.withBranch name { name := name, commits := b.commits, head := b.head })
  | switchBranch (name : String) :
      (getBranch p.branches name).truthy = true →
      ProjStep p { p with currentBranch := name }
  | stashSave (entry : StashEntry) : ProjStep p { p with stash := entry :: p.stash }
  | stashPop (entry : StashEntry) (rest : List StashEntry) :
      p.stash = entry :: rest → ProjStep p { p with stash := rest }
  | deleteStash (i : Nat) :
      i < p.stash.length → ProjStep p { p with stash := p.stash.eraseIdx i }

/-- A world in which no project is current. -/
def noProjectWorld : World :=
  { demoWorld with store := { demoStore with currentProject := none } }

/-! ## Abbreviations for the statements about runs and messages -/

/-- Whether a call is `switchBranch` with a name inherited from
    `Object.prototype`. -/
def Op.switchesToInherited : Op → Prop
  | Op.switchBranch name => name ∈ objectPrototypeKeys
  | _ => False

/-- Whether a message is one of the four `REMOVE_*` messages. -/
def Msg.isRemoval : Msg → Bool
  | Msg.removeDevice _ => true
  | Msg.removeTerrain _ _ _ => true
  | Msg.removeWire _ => true
  | Msg.removeCustomAsset _ => true
  | _ => false

/-- The removal messages for the items of a live document. -/
def removalsOf (doc : LiveDoc) : List Msg :=
  doc.devices.map (fun v => Msg.removeDevice v.id)
    ++ doc.tiles.map (fun t => Msg.removeTerrain t.depth t.x t.y)
    ++ doc.wires.map (fun v => Msg.removeWire v.id)
    ++ doc.customAssets.map (fun a => Msg.removeCustomAsset a.id)

/-- The creation messages for the items of a snapshot: custom assets, devices,
    tiles, wires. -/
def creationsOf (target : Snapshot) : List Msg :=
  target.customAssets.map (fun a => Msg.addCustomAsset a.data a.id a.rest)
    ++ target.devices.map (fun v => Msg.placeDevice v.deviceTypeId v.id v.options v.x v.y)
    ++ target.tiles.map (fun t => Msg.placeTerrain t)
    ++ target.wires.map (fun v =>
        Msg.placeWire v.endConnection v.endDeviceId v.startConnection v.startDeviceId)

/-! ## Project management -/

/-- The text a template string shows for the current project name (`null` when
    there is none). -/
def nameText : Option String → String
  | none => "null"
  | some n => n

/-- The list read by `getProjects()`: `storage.get(PROJECTS_KEY) || []`. -/
def getProjects (s : Storage) : List String :=
  match s.projects with
  | some projects => projects
  | none => []

/-- The store after `saveProjects(projects)`; `ok` tells whether `setItem`
    succeeded. -/
def saveProjects (ok : Bool) (s : Storage) (projects : List String) : Storage :=
  if ok then { s with projects := some projects } else s

/-- The records after `storage.remove(key)` for a project key. -/
def removeRec : List Project → String → List Project
  | [], _ => []
  | p :: ps, key =>
    if getProjectKey p.name = key then removeRec ps key else p :: removeRec ps key

/-- The handler `deleteProjectBtn.onclick`; `confirmed` is the answer to
    `confirm(...)`. -/
def deleteProject (confirmed : Bool) (e : Env) (w : World) : World :=
  let projName := getCurrentProject w.store
  if ¬ confirmed then w
  else
    let projs := getProjects w.store
    let updated := projs.filter fun p => some p ≠ projName
    let s1 := saveProjects e.setOk w.store updated
    let s2 : Storage :=
      { s1 with records := removeRec s1.records (getProjectKey (nameText projName)) }
    let s3 : Storage := { s2 with currentProject := none }
    ({ w with store := s3 } : World).notify
      (Note.success ("Deleted project: " ++ nameText projName))

/-! ## More concrete data -/

/-- A store holding the wired project "Demo" (current) and a project "Other"
    with one stash entry. -/
def twoProjectWorld : World :=
  { store :=
      { currentProject := some "Demo", projects := some ["Other", "Demo", "Third"]
        records := [wiredProject, { defaultProject "Other" with stash := [oldEntry 1] }] }
    doc := emptyDoc, sent := [], notes := [] }

/-- An environment whose clock reads `n` and whose store rejects writes. -/
def rejectingEnv (n : Nat) : Env := { nowId := n, rand := "r", nowStamp := n, setOk := false }

/-- The branch `createBranch(name)` stores when `b` is current. -/
def Branch.forkAs (b : Branch) (name : String) : Branch :=
  { name := name, commits := b.commits, head := b.head }

/-! ## The graph builder -/

/-- A value of `commitMap`: the copied commit and its `children`. -/
structure GraphEntry where
  commit : Commit
  children : List String
  deriving DecidableEq, Repr

/-- The entries after `commitMap.set(k, v)`: an existing key keeps its place. -/
def mapSet : List (String × GraphEntry) → String → GraphEntry → List (String × GraphEntry)
  | [], k, v => [(k, v)]
  | (k0, v0) :: rest, k, v =>
    if k0 = k then (k0, v) :: rest else (k0, v0) :: mapSet rest k v

/-- The result of `commitMap.get(k)`. -/
def mapGet : List (String × GraphEntry) → String → Option GraphEntry
  | [], _ => none
  | (k0, v0) :: rest, k => if k0 = k then some v0 else mapGet rest k

/-- The result of `commitMap.has(k)`. -/
def mapHas (m : List (String × GraphEntry)) (k : String) : Bool := (mapGet m k).isSome

/-- The entries after `commitMap.get(k).children.push(child)`. -/
def mapPushChild :
    List (String × GraphEntry) → String → String → List (String × GraphEntry)
  | [], _, _ => []
  | (k0, v0) :: rest, k, child =>
    if k0 = k then (k0, { v0 with children := v0.children ++ [child] }) :: rest
    else (k0, v0) :: mapPushChild rest k child

/-- The first loop of `buildGitGraph`: one entry per commit id, without
    children. -/
def buildCommitMap (commits : List Commit) : List (String × GraphEntry) :=
  commits.foldl (fun m commit => mapSet m commit.id { commit := commit, children := [] }) []

/-- One round of the second loop of `buildGitGraph`. -/
def linkChild (m : List (String × GraphEntry)) (commit : Commit) :
    List (String × GraphEntry) :=
  match commit.parent with
  | some parent =>
    if headTruthy (some parent) && mapHas m parent then mapPushChild m parent commit.id else m
  | none => m

/-- The map `commitMap` after both loops of `buildGitGraph`. -/
def commitTree (commits : List Commit) : List (String × GraphEntry) :=
  commits.foldl linkChild (buildCommitMap commits)

/-- The children `commitMap` lists under `p` (none when `p` is not a key). -/
def childrenOf (m : List (String × GraphEntry)) (p : String) : List String :=
  match mapGet m p with
  | some entry => entry.children
  | none => []


/-- The UTF-16 code units of one character: JavaScript strings are sequences
    of such units. -/
def utf16Units (c : Char) : List Nat :=
  if c.toNat < 65536 then [c.toNat]
  else [55296 + (c.toNat - 65536) / 1024, 56320 + (c.toNat - 65536) % 1024]

/-- A string as JavaScript holds it: its UTF-16 code units. -/
def toUtf16 (s : String) : List Nat := s.data.flatMap utf16Units

/-- The code units of `s.substring(0, 7)`: the first 7 UTF-16 units of `s`. -/
def substring07 (s : String) : List Nat := (toUtf16 s).take 7

/-- What one round of the rendering loop of `buildGitGraph` computes for a
    commit. -/
structure GraphNode where
  id : String
  message : String
  isHead : Bool
  hasChildren : Bool
  hasParent : Bool
  shortId : List Nat
  date : String
  deriving DecidableEq, Repr

/-- The values computed by the rendering loop, in the order of the loop;
    `fmt` is `new Date(t).toLocaleString()`. -/
def graphNodes (fmt : Nat → String) (commits : List Commit) (headId : Option String) :
    List GraphNode :=
  let commitMap := commitTree commits
  let reversedCommits := commits.reverse
  reversedCommits.map fun commit =>
    { id := commit.id
      message := commit.message
      isHead := some commit.id = headId
      hasChildren := decide (0 < (childrenOf commitMap commit.id).length)
      hasParent := commit.parent ≠ none
      shortId := substring07 commit.id
      date := fmt commit.timestamp }

/-- The markup of one commit (`line` in the source), as code units. -/
def nodeLine (n : GraphNode) : List Nat :=
  toUtf16 "<span style=\"color: #6366f1;\">‚îÇ</span> "
    ++ (if n.isHead then
          toUtf16 "<span style=\"color: #4ade80; font-weight: bold;\">‚óè</span> "
        else toUtf16 "<span style=\"color: #6366f1;\">‚óè</span> ")
    ++ toUtf16 "<span style=\"color: "
    ++ (if n.isHead then toUtf16 "#4ade80" else toUtf16 "#e0e0e0")
    ++ toUtf16 "; cursor: pointer;\" class=\"vc-commit-graph\" data-id=\""
    ++ toUtf16 n.id ++ toUtf16 "\">"
    ++ toUtf16 "<strong>" ++ toUtf16 n.message ++ toUtf16 "</strong>"
    ++ (if n.isHead then toUtf16 " <span style=\"color: #4ade80;\">(HEAD)</span>" else [])
    ++ toUtf16 "<br><span style=\"margin-left: 24px; color: #888; font-size: 11px;\">"
    ++ n.shortId ++ toUtf16 " - " ++ toUtf16 n.date ++ toUtf16 "</span>"
    ++ toUtf16 "</span>"

/-- The pieces appended to `graphHtml` by the rendering loop: the row of each
    commit, and a connector after every row but the last. -/
def graphRows : List GraphNode → List (List Nat)
  | [] => []
  | [n] => [toUtf16 "<div style=\"margin: 4px 0;\">" ++ nodeLine n ++ toUtf16 "</div>"]
  | n :: m :: rest =>
    (toUtf16 "<div style=\"margin: 4px 0;\">" ++ nodeLine n ++ toUtf16 "</div>")
      :: toUtf16 "<div style=\"margin: 0;\"><span style=\"color: #6366f1;\">‚îÇ</span></div>"
      :: graphRows (m :: rest)

/-- The code units of the string `buildGitGraph(commits, headId)` returns. -/
def buildGitGraph (fmt : Nat → String) (commits : List Commit) (headId : Option String) :
    List Nat :=
  if commits.length = 0 then []
  else
    toUtf16 "<div style=\"font-family: monospace; line-height: 2;\">"
      ++ (graphRows (graphNodes fmt commits headId)).flatten
      ++ toUtf16 "</div>"

/-- A log whose first commit has the empty string as id and is named as parent
    by the second. -/
def emptyIdLog : List Commit :=
  [{ id := "", message := "root", timestamp := 1, parent := none,
     state := { tiles := [], devices := [], wires := [], customAssets := [] } },
   { id := "b", message := "child", timestamp := 2, parent := some "",
     state := { tiles := [], devices := [], wires := [], customAssets := [] } }]

/-- A log of three commits: a root, its child, and a commit whose parent is
    not in the log. -/
def graphLog : List Commit :=
  [{ id := "aaaaaaaaa1", message := "init", timestamp := 1, parent := none,
     state := { tiles := [], devices := [], wires := [], customAssets := [] } },
   { id := "bbbbbbbbb2", message := "work", timestamp := 2, parent := some "aaaaaaaaa1",
     state := { tiles := [], devices := [], wires := [], customAssets := [] } },
   { id := "ccccccccc3", message := "stray", timestamp := 3, parent := some "zzz",
     state := { tiles := [], devices := [], wires := [], customAssets := [] } }]

/-- Whether the second loop lists `c` under `p` in a map that has the keys of
    `m`. -/
def listedUnder (m : List (String × GraphEntry)) (p : String) (c : Commit) : Bool :=
  decide (c.parent = some p) && (headTruthy (some p) && mapHas m p)

/-! ## Data for the runs with a rejected write -/

/-- A second commit, on top of `wiredCommit`, holding the empty snapshot. -/
def plainCommit : Commit :=
  { id := "c2", message := "cleared", timestamp := 2, parent := some "c1",
    state := { tiles := [], devices := [], wires := [], customAssets := [] } }

/-- The branch `main` with the commits "c1" and "c2" and head on "c2". -/
def twoCommitBranch : Branch :=
  { name := "main", commits := [wiredCommit, plainCommit], head := some "c2" }

/-- Project "Demo" with two commits on `main`, selected, over the empty
    document. -/
def twoCommitWorld : World :=
  { store :=
      { currentProject := some "Demo", projects := some ["Demo"]
        records := [{ name := "Demo", currentBranch := "main",
                      branches := [("main", twoCommitBranch)], stash := [] }] }
    doc := emptyDoc, sent := [], notes := [] }

/-! ## Basic facts about the store and about property reads -/

theorem getRec_key {recs : List Project} {key : String} {p : Project}
    (h : getRec recs key = some p) : getProjectKey p.name = key := by
  induction recs with
  | nil => simp [getRec] at h
  | cons q qs ih =>
    unfold getRec at h
    split at h
    · cases h; assumption
    · exact ih h

theorem getRec_setRec_self (recs : List Project) (q : Project) :
    getRec (setRec recs q) (getProjectKey q.name) = some q := by
  induction recs with
  | nil => simp [setRec, getRec]
  | cons p ps ih =>
    unfold setRec
    split
    · simp [getRec]
    · rename_i hne
      simp [getRec, hne, ih]

theorem getRec_setRec_other (recs : List Project) (q : Project) (key : String)
    (hne : getProjectKey q.name ≠ key) :
    getRec (setRec recs q) key = getRec recs key := by
  induction recs with
  | nil => simp [setRec, getRec, hne]
  | cons p ps ih =>
    unfold setRec
    split
    · rename_i heq
      have : getProjectKey p.name ≠ key := by rw [heq]; exact hne
      simp [getRec, hne, this]
    · by_cases hp : getProjectKey p.name = key
      · simp [getRec, hp]
      · simp [getRec, hp, ih]

theorem getProject_key (s : Storage) (P : String) :
    getProjectKey (getProject s P).name = getProjectKey P := by
  unfold getProject
  split
  · rename_i p h
    exact getRec_key h
  · rfl

theorem getProject_saveProject (s : Storage) (q : Project) (P : String)
    (h : getProjectKey q.name = getProjectKey P) :
    getProject (saveProject true s q) P = q := by
  simp only [getProject, saveProject, if_true]
  rw [← h, getRec_setRec_self]

theorem saveProject_false (s : Storage) (q : Project) : saveProject false s q = s := by
  simp [saveProject]

theorem saveProject_currentProject (ok : Bool) (s : Storage) (q : Project) :
    (saveProject ok s q).currentProject = s.currentProject := by
  cases ok <;> simp [saveProject]

theorem saveProject_projects (ok : Bool) (s : Storage) (q : Project) :
    (saveProject ok s q).projects = s.projects := by
  cases ok <;> simp [saveProject]

theorem ownBranch_replaceBranch_self (bs : List (String × Branch)) (n : String) (b old : Branch)
    (h : ownBranch bs n = some old) : ownBranch (replaceBranch bs n b) n = some b := by
  induction bs with
  | nil => simp [ownBranch] at h
  | cons x xs ih =>
    obtain ⟨k, v⟩ := x
    unfold ownBranch at h
    unfold replaceBranch
    split at h
    · rename_i hk
      simp [ownBranch, hk]
    · rename_i hk
      simp [ownBranch, hk, ih h]

theorem ownBranch_replaceBranch_other (bs : List (String × Branch)) (n m : String) (b : Branch)
    (hne : m ≠ n) : ownBranch (replaceBranch bs n b) m = ownBranch bs m := by
  induction bs with
  | nil => rfl
  | cons x xs ih =>
    obtain ⟨k, v⟩ := x
    unfold replaceBranch
    split
    · rename_i h
      have : k ≠ m := by rw [h]; exact fun h2 => hne h2.symm
      simp [ownBranch, this]
    · by_cases hk : k = m
      · simp [ownBranch, hk]
      · simp [ownBranch, hk, ih]

theorem ownBranch_insertIndexKey_self (i : Nat) (bs : List (String × Branch)) (n : String)
    (b : Branch) (h : ownBranch bs n = none) :
    ownBranch (insertIndexKey i n b bs) n = some b := by
  induction bs with
  | nil => simp [insertIndexKey, ownBranch]
  | cons x xs ih =>
    obtain ⟨k, v⟩ := x
    unfold ownBranch at h
    split at h
    · cases h
    · rename_i hk
      unfold insertIndexKey
      split
      · split
        · simp [ownBranch]
        · simp [ownBranch, hk, ih h]
      · simp [ownBranch]

theorem ownBranch_insertIndexKey_other (i : Nat) (bs : List (String × Branch)) (n m : String)
    (b : Branch) (hne : m ≠ n) :
    ownBranch (insertIndexKey i n b bs) m = ownBranch bs m := by
  have hnm : ¬ n = m := fun h => hne h.symm
  induction bs with
  | nil => simp [insertIndexKey, ownBranch, hnm]
  | cons x xs ih =>
    obtain ⟨k, v⟩ := x
    unfold insertIndexKey
    split
    · split
      · simp [ownBranch, hnm]
      · by_cases hk : k = m
        · simp [ownBranch, hk]
        · simp [ownBranch, hk, ih]
    · simp [ownBranch, hnm]

theorem ownBranch_append_self (bs : List (String × Branch)) (n : String) (b : Branch)
    (h : ownBranch bs n = none) : ownBranch (bs ++ [(n, b)]) n = some b := by
  induction bs with
  | nil => simp [ownBranch]
  | cons x xs ih =>
    obtain ⟨k, v⟩ := x
    unfold ownBranch at h
    split at h
    · cases h
    · rename_i hk
      simp [ownBranch, hk, ih h]

theorem ownBranch_append_other (bs : List (String × Branch)) (n m : String) (b : Branch)
    (hne : m ≠ n) : ownBranch (bs ++ [(n, b)]) m = ownBranch bs m := by
  have hnm : ¬ n = m := fun h => hne h.symm
  induction bs with
  | nil => simp [ownBranch, hnm]
  | cons x xs ih =>
    obtain ⟨k, v⟩ := x
    by_cases hk : k = m
    · simp [ownBranch, hk]
    · simp [ownBranch, hk, ih]

theorem ownBranch_setBranch_self (bs : List (String × Branch)) (n : String) (b : Branch) :
    ownBranch (setBranch bs n b) n = some b := by
  unfold setBranch
  split
  · rename_i old h
    exact ownBranch_replaceBranch_self bs n b old h
  · rename_i h
    split
    · exact ownBranch_insertIndexKey_self _ bs n b h
    · exact ownBranch_append_self bs n b h

theorem ownBranch_setBranch_other (bs : List (String × Branch)) (n m : String) (b : Branch)
    (hne : m ≠ n) : ownBranch (setBranch bs n b) m = ownBranch bs m := by
  unfold setBranch
  split
  · exact ownBranch_replaceBranch_other bs n m b hne
  · split
    · exact ownBranch_insertIndexKey_other _ bs n m b hne
    · exact ownBranch_append_other bs n m b hne

theorem setBranch_of_not_own (bs : List (String × Branch)) (n : String) (b : Branch)
    (h : ownBranch bs n = none) (hidx : arrayIndex? n = none) :
    setBranch bs n b = bs ++ [(n, b)] := by
  simp [setBranch, h, hidx]

theorem replaceBranch_keys (bs : List (String × Branch)) (n : String) (b : Branch) :
    (replaceBranch bs n b).map Prod.fst = bs.map Prod.fst := by
  induction bs with
  | nil => rfl
  | cons x xs ih =>
    obtain ⟨k, v⟩ := x
    unfold replaceBranch
    split
    · simp
    · simp [ih]

theorem setBranch_keys (bs : List (String × Branch)) (n : String) (b old : Branch)
    (h : ownBranch bs n = some old) :
    (setBranch bs n b).map Prod.fst = bs.map Prod.fst := by
  simp only [setBranch, h]
  exact replaceBranch_keys bs n b

theorem mem_replaceBranch {bs : List (String × Branch)} {n : String} {b : Branch}
    {kb : String × Branch} (h : kb ∈ replaceBranch bs n b) : kb ∈ bs ∨ kb.2 = b := by
  induction bs with
  | nil => simp [replaceBranch] at h
  | cons x xs ih =>
    obtain ⟨k, old⟩ := x
    unfold replaceBranch at h
    split at h
    · rcases List.mem_cons.1 h with h | h
      · right; rw [h]
      · left; exact List.mem_cons_of_mem _ h
    · rcases List.mem_cons.1 h with h | h
      · left; rw [h]; exact List.mem_cons_self _ _
      · rcases ih h with h | h
        · left; exact List.mem_cons_of_mem _ h
        · right; exact h

theorem mem_insertIndexKey {i : Nat} {bs : List (String × Branch)} {n : String} {b : Branch}
    {kb : String × Branch} (h : kb ∈ insertIndexKey i n b bs) : kb ∈ bs ∨ kb.2 = b := by
  induction bs with
  | nil =>
    simp [insertIndexKey] at h
    right; rw [h]
  | cons x xs ih =>
    obtain ⟨k, old⟩ := x
    unfold insertIndexKey at h
    split at h
    · split at h
      · rcases List.mem_cons.1 h with h | h
        · right; rw [h]
        · left; exact h
      · rcases List.mem_cons.1 h with h | h
        · left; rw [h]; exact List.mem_cons_self _ _
        · rcases ih h with h | h
          · left; exact List.mem_cons_of_mem _ h
          · right; exact h
    · rcases List.mem_cons.1 h with h | h
      · right; rw [h]
      · left; exact h

theorem mem_setBranch {bs : List (String × Branch)} {n : String} {b : Branch}
    {kb : String × Branch} (h : kb ∈ setBranch bs n b) : kb ∈ bs ∨ kb.2 = b := by
  unfold setBranch at h
  split at h
  · exact mem_replaceBranch h
  · split at h
    · exact mem_insertIndexKey h
    · rcases List.mem_append.1 h with h | h
      · left; exact h
      · right
        simp at h
        rw [h]

/-- Sample values of the key order: "1" goes before "main", "10" after "2",
    "01" is no array index. -/
theorem setBranch_order_samples :
    (setBranch [("main", mainBranch)] "1" mainBranch).map Prod.fst = ["1", "main"] ∧
    (setBranch [("2", mainBranch), ("main", mainBranch)] "10" mainBranch).map Prod.fst
      = ["2", "10", "main"] ∧
    (setBranch [("2", mainBranch), ("main", mainBranch)] "01" mainBranch).map Prod.fst
      = ["2", "main", "01"] ∧
    (setBranch [("main", mainBranch)] "feature" mainBranch).map Prod.fst
      = ["main", "feature"] ∧
    (setBranch [("main", mainBranch), ("x", mainBranch)] "main"
      { mainBranch with head := some "h" }).map Prod.fst = ["main", "x"] := by
  decide

theorem getBranch_own_iff (bs : List (String × Branch)) (n : String) (b : Branch) :
    getBranch bs n = PropLookup.own b ↔ ownBranch bs n = some b := by
  unfold getBranch
  split
  · rename_i b2 h
    simp [h]
  · rename_i h
    simp only [h]
    split <;> simp

theorem getBranch_setBranch_self (bs : List (String × Branch)) (n : String) (b : Branch) :
    getBranch (setBranch bs n b) n = PropLookup.own b := by
  simp [getBranch, ownBranch_setBranch_self]

theorem getBranch_setBranch_other (bs : List (String × Branch)) (n m : String) (b : Branch)
    (hne : m ≠ n) : getBranch (setBranch bs n b) m = getBranch bs m := by
  simp [getBranch, ownBranch_setBranch_other bs n m b hne]

/-! ## C1: a run of commits -/

theorem commit_own (e : Env) (m : String) (w : World) (P : String) (b : Branch)
    (hP : truthyName (getCurrentProject w.store) = some P)
    (hb : getBranch (getProject w.store P).branches (getProject w.store P).currentBranch
      = PropLookup.own b) :
    commit e m w = some ((w.save e
      ((getProject w.store P).withBranch (getProject w.store P).currentBranch
        (b.pushCommit (commitObjOf e m b.head (getMap w.doc))))).notify
      (Note.success ("Committed: " ++ orDefault m "Untitled commit"))) := by
  simp only [commit, hP, hb]
  rfl

theorem commitAll_spec (calls : List (Env × String)) :
    ∀ (w : World) (P : String) (b : Branch),
      truthyName (getCurrentProject w.store) = some P →
      getBranch (getProject w.store P).branches (getProject w.store P).currentBranch
        = PropLookup.own b →
      (∀ c ∈ calls, c.1.setOk = true) →
      ∃ w', commitAll w calls = some w' ∧ w'.doc = w.doc ∧ w'.sent = w.sent ∧
        truthyName (getCurrentProject w'.store) = some P ∧
        (getProject w'.store P).currentBranch = (getProject w.store P).currentBranch ∧
        getBranch (getProject w'.store P).branches (getProject w'.store P).currentBranch
          = PropLookup.own
            { name := b.name, commits := b.commits ++ commitChain (getMap w.doc) b.head calls,
              head := chainHead b.head calls } := by
  induction calls with
  | nil =>
    intro w P b hP hb _
    exact ⟨w, rfl, rfl, rfl, hP, rfl, by simpa [commitChain, chainHead] using hb⟩
  | cons call rest ih =>
    obtain ⟨e, m⟩ := call
    intro w P b hP hb hok
    have he : e.setOk = true := hok (e, m) (List.mem_cons_self _ _)
    have hstep := commit_own e m w P b hP hb
    simp only [World.save, he] at hstep
    generalize hp2 : (getProject w.store P).withBranch (getProject w.store P).currentBranch
        (b.pushCommit (commitObjOf e m b.head (getMap w.doc))) = p2 at hstep
    have hkey : getProjectKey p2.name = getProjectKey P := by
      rw [← hp2]; exact getProject_key w.store P
    have hget := getProject_saveProject w.store p2 P hkey
    obtain ⟨w', h1, h2, h3, h4, h5, h6⟩ := ih
      (({ w with store := saveProject true w.store p2 } : World).notify
        (Note.success ("Committed: " ++ orDefault m "Untitled commit"))) P
      (b.pushCommit (commitObjOf e m b.head (getMap w.doc)))
      (by simpa [World.notify, getCurrentProject, saveProject_currentProject] using hP)
      (by
        simp only [World.notify, hget]
        rw [← hp2]
        exact getBranch_setBranch_self _ _ _)
      (fun c hc => hok c (List.mem_cons_of_mem _ hc))
    refine ⟨w', ?_, ?_, ?_, h4, ?_, ?_⟩
    · simp only [commitAll, hstep, Option.bind_some]
      exact h1
    · simpa [World.notify] using h2
    · simpa [World.notify] using h3
    · rw [h5]
      simp only [World.notify, hget]
      rw [← hp2]; rfl
    · rw [h6]
      simp [World.notify, commitChain, chainHead, List.append_assoc, Branch.pushCommit, commitObjOf]

theorem commitChain_length (state : Snapshot) (calls : List (Env × String)) :
    ∀ parent, (commitChain state parent calls).length = calls.length := by
  induction calls with
  | nil => intro _; rfl
  | cons c cs ih => intro parent; obtain ⟨e, m⟩ := c; simp [commitChain, ih]

theorem commitChain_map (state : Snapshot) (calls : List (Env × String)) :
    ∀ parent, (commitChain state parent calls).map (fun c => (c.id, c.message))
      = calls.map (fun c => (newId c.1, orDefault c.2 "Untitled commit")) := by
  induction calls with
  | nil => intro _; rfl
  | cons c cs ih => intro parent; obtain ⟨e, m⟩ := c; simp [commitChain, ih]

theorem commitChain_head (state : Snapshot) (calls : List (Env × String)) (parent : Option String)
    (c : Commit) (h : (commitChain state parent calls).head? = some c) : c.parent = parent := by
  cases calls with
  | nil => simp [commitChain] at h
  | cons x xs =>
    obtain ⟨e, m⟩ := x
    simp [commitChain] at h
    rw [← h]

theorem commitChain_parent (state : Snapshot) (calls : List (Env × String)) :
    ∀ (parent : Option String) (i : Nat) (c d : Commit),
      (commitChain state parent calls)[i]? = some c →
      (commitChain state parent calls)[i + 1]? = some d → d.parent = some c.id := by
  induction calls with
  | nil => intro _ i c d h; simp [commitChain] at h
  | cons x xs ih =>
    obtain ⟨e, m⟩ := x
    intro parent i c d hc hd
    cases i with
    | zero =>
      simp [commitChain] at hc hd
      have := commitChain_head state xs (some (newId e)) d (by
        rw [List.head?_eq_getElem?]; exact hd)
      rw [this, ← hc]
    | succ j =>
      simp [commitChain] at hc hd
      exact ih _ j c d hc hd

theorem chainHead_last (state : Snapshot) (calls : List (Env × String)) :
    ∀ (parent : Option String) (c : Commit),
      (commitChain state parent calls).getLast? = some c →
      chainHead parent calls = some c.id := by
  induction calls with
  | nil => intro _ c h; simp [commitChain] at h
  | cons x xs ih =>
    obtain ⟨e, m⟩ := x
    intro parent c h
    cases xs with
    | nil =>
      simp [commitChain] at h
      simp [chainHead, ← h]
    | cons y ys =>
      obtain ⟨e2, m2⟩ := y
      simp only [chainHead]
      apply ih (some (newId e)) c
      simp only [commitChain] at h ⊢
      rw [List.getLast?_cons_cons] at h
      exact h

/-- C1, as the code has it: with a project selected and the store accepting the writes, `n` consecutive
    `commit` calls on an empty current branch all return, and leave a log of exactly
    `n` commits in call order (ids and messages as generated by the calls); the
    first commit has parent null, every later commit has the id of the commit just
    before it as parent, and the head is the id of the last commit. -/
theorem commit_sequence_log (w : World) (P : String) (b : Branch)
    (calls : List (Env × String))
    (hP : truthyName (getCurrentProject w.store) = some P)
    (hb : getBranch (getProject w.store P).branches (getProject w.store P).currentBranch
      = PropLookup.own b)
    (hcommits : b.commits = []) (hhead : b.head = none)
    (hok : ∀ c ∈ calls, c.1.setOk = true) :
    ∃ w' b', commitAll w calls = some w' ∧
      (getProject w'.store P).currentBranch = (getProject w.store P).currentBranch ∧
      getBranch (getProject w'.store P).branches (getProject w'.store P).currentBranch
        = PropLookup.own b' ∧
      b'.commits.length = calls.length ∧
      b'.commits.map (fun c => (c.id, c.message))
        = calls.map (fun c => (newId c.1, orDefault c.2 "Untitled commit")) ∧
      (∀ c, b'.commits.head? = some c → c.parent = none) ∧
      (∀ i c d, b'.commits[i]? = some c → b'.commits[i + 1]? = some d →
        d.parent = some c.id) ∧
      (∀ c, b'.commits.getLast? = some c → b'.head = some c.id) := by
  obtain ⟨w', h1, _, _, _, h5, h6⟩ := commitAll_spec calls w P b hP hb hok
  refine ⟨w', _, h1, h5, h6, ?_, ?_, ?_, ?_, ?_⟩
  · simp [hcommits, commitChain_length]
  · simp only [hcommits, List.nil_append]
    exact commitChain_map _ _ _
  · intro c hc
    simp only [hcommits, List.nil_append] at hc
    rw [commitChain_head _ _ _ c hc, hhead]
  · intro i c d hc hd
    simp only [hcommits, List.nil_append] at hc hd
    exact commitChain_parent _ _ _ i c d hc hd
  · intro c hc
    simp only [hcommits, List.nil_append] at hc
    exact chainHead_last _ _ _ c hc

/-- Worked instance of C1: two commits on the fresh project "Demo". -/
theorem commit_sequence_log_witness :
    truthyName (getCurrentProject demoWorld.store) = some "Demo" ∧
    ∃ w' b', commitAll demoWorld [(envAt 1, "init"), (envAt 2, "")] = some w' ∧
      (getProject w'.store "Demo").currentBranch
        = (getProject demoWorld.store "Demo").currentBranch ∧
      getBranch (getProject w'.store "Demo").branches (getProject w'.store "Demo").currentBranch
        = PropLookup.own b' ∧
      b'.commits.length = [(envAt 1, "init"), (envAt 2, "")].length ∧
      b'.commits.map (fun c => (c.id, c.message))
        = [(envAt 1, "init"), (envAt 2, "")].map
            (fun c => (newId c.1, orDefault c.2 "Untitled commit")) ∧
      (∀ c, b'.commits.head? = some c → c.parent = none) ∧
      (∀ i c d, b'.commits[i]? = some c → b'.commits[i + 1]? = some d →
        d.parent = some c.id) ∧
      (∀ c, b'.commits.getLast? = some c → b'.head = some c.id) :=
  ⟨by decide,
   commit_sequence_log demoWorld "Demo" mainBranch [(envAt 1, "init"), (envAt 2, "")]
    (by decide) (by decide) rfl rfl (by decide)⟩

/-! ## The snapshot codec against the host -/

theorem performAll_append (H : Host) (d : LiveDoc) (a b : List Msg) :
    H.performAll d (a ++ b) = H.performAll (H.performAll d a) b := by
  simp [Host.performAll, List.foldl_append]

theorem performAll_removeDevices (H : Host) (ids : List String) :
    ∀ d : LiveDoc, H.performAll d (ids.map Msg.removeDevice)
      = { d with devices := d.devices.filter fun v => v.id ∉ ids } := by
  induction ids with
  | nil => intro d; simp [Host.performAll]
  | cons i is ih =>
    intro d
    have := ih (H.perform d (Msg.removeDevice i))
    simp only [Host.performAll, List.map_cons, List.foldl_cons] at this ⊢
    rw [this]
    simp [Host.perform, List.filter_filter, Bool.and_comm]

theorem performAll_removeWires (H : Host) (ids : List String) :
    ∀ d : LiveDoc, H.performAll d (ids.map Msg.removeWire)
      = { d with wires := d.wires.filter fun v => v.id ∉ ids } := by
  induction ids with
  | nil => intro d; simp [Host.performAll]
  | cons i is ih =>
    intro d
    have := ih (H.perform d (Msg.removeWire i))
    simp only [Host.performAll, List.map_cons, List.foldl_cons] at this ⊢
    rw [this]
    simp [Host.perform, List.filter_filter, Bool.and_comm]

theorem performAll_removeCustomAssets (H : Host) (ids : List String) :
    ∀ d : LiveDoc, H.performAll d (ids.map Msg.removeCustomAsset)
      = { d with customAssets := d.customAssets.filter fun v => v.id ∉ ids } := by
  induction ids with
  | nil => intro d; simp [Host.performAll]
  | cons i is ih =>
    intro d
    have := ih (H.perform d (Msg.removeCustomAsset i))
    simp only [Host.performAll, List.map_cons, List.foldl_cons] at this ⊢
    rw [this]
    simp [Host.perform, List.filter_filter, Bool.and_comm]

theorem performAll_removeTerrain (H : Host) (ts : List Tile) :
    ∀ d : LiveDoc, H.performAll d (ts.map fun t => Msg.removeTerrain t.depth t.x t.y)
      = { d with tiles := d.tiles.filter (offPositions ts) } := by
  induction ts with
  | nil =>
    intro d
    have : offPositions [] = fun _ => true := by funext t; simp [offPositions]
    simp [Host.performAll, this]
  | cons i is ih =>
    intro d
    have := ih (H.perform d (Msg.removeTerrain i.depth i.x i.y))
    simp only [Host.performAll, List.map_cons, List.foldl_cons] at this ⊢
    rw [this]
    simp only [Host.perform, List.filter_filter]
    congr 1
    apply List.filter_congr
    intro t _
    simp [offPositions, Bool.and_comm]

theorem performAll_addCustomAssets (H : Host) (as : List CustomAsset) :
    ∀ d : LiveDoc, H.performAll d (as.map fun a => Msg.addCustomAsset a.data a.id a.rest)
      = { d with customAssets := d.customAssets ++ as } := by
  induction as with
  | nil => intro d; simp [Host.performAll]
  | cons a as ih =>
    intro d
    have := ih (H.perform d (Msg.addCustomAsset a.data a.id a.rest))
    simp only [Host.performAll, List.map_cons, List.foldl_cons] at this ⊢
    rw [this]
    simp [Host.perform]

theorem performAll_placeDevices (H : Host) (ds : List Device) :
    ∀ d : LiveDoc,
      H.performAll d (ds.map fun v => Msg.placeDevice v.deviceTypeId v.id v.options v.x v.y)
      = { d with devices := d.devices ++ ds.map fun v =>
            { id := v.id, deviceOptionId := v.deviceTypeId,
              options := H.decodeOptions v.options, x := v.x, y := v.y } } := by
  induction ds with
  | nil => intro d; simp [Host.performAll]
  | cons a as ih =>
    intro d
    have := ih (H.perform d (Msg.placeDevice a.deviceTypeId a.id a.options a.x a.y))
    simp only [Host.performAll, List.map_cons, List.foldl_cons] at this ⊢
    rw [this]
    simp [Host.perform]

theorem performAll_placeTerrain (H : Host) (ts : List Tile) :
    ∀ d : LiveDoc, H.performAll d (ts.map fun t => Msg.placeTerrain t)
      = { d with tiles := d.tiles ++ ts } := by
  induction ts with
  | nil => intro d; simp [Host.performAll]
  | cons a as ih =>
    intro d
    have := ih (H.perform d (Msg.placeTerrain a))
    simp only [Host.performAll, List.map_cons, List.foldl_cons] at this ⊢
    rw [this]
    simp [Host.perform]

theorem performAll_placeWires (H : Host) (ws : List Wire) :
    ∀ d : LiveDoc,
      H.performAll d (ws.map fun v =>
        Msg.placeWire v.endConnection v.endDeviceId v.startConnection v.startDeviceId)
      = { d with wires := d.wires ++ hostWires H d.wiresPlaced ws
                 wiresPlaced := d.wiresPlaced + ws.length } := by
  induction ws with
  | nil => intro d; simp [Host.performAll, hostWires]
  | cons a as ih =>
    intro d
    have := ih (H.perform d
      (Msg.placeWire a.endConnection a.endDeviceId a.startConnection a.startDeviceId))
    simp only [Host.performAll, List.map_cons, List.foldl_cons] at this ⊢
    rw [this]
    simp [Host.perform, hostWires, Nat.add_assoc, Nat.add_comm 1]

theorem filter_offPositions_self (ts : List Tile) : ts.filter (offPositions ts) = [] := by
  rw [List.filter_eq_nil_iff]
  intro a ha
  simp [offPositions]
  exact ⟨a, ha, rfl, rfl, rfl⟩

/-- The live document after the host performed everything `goToState(state)` sent. -/
theorem performAll_goToState (H : Host) (doc : LiveDoc) (state : Snapshot) :
    H.performAll doc (goToState doc state)
      = { tiles := state.tiles
          devices := state.devices.map fun v =>
            { id := v.id, deviceOptionId := v.deviceTypeId,
              options := H.decodeOptions v.options, x := v.x, y := v.y }
          wires := hostWires H doc.wiresPlaced state.wires
          customAssets := state.customAssets
          wiresPlaced := doc.wiresPlaced + state.wires.length } := by
  simp only [goToState, getMap, performAll_append, List.map_map]
  have h1 := performAll_removeDevices H (doc.devices.map fun v => v.id) doc
  simp only [List.map_map] at h1
  have e1 : (fun device : Device => Msg.removeDevice device.id) ∘ (fun device : LiveDevice =>
      ({ id := device.id, deviceTypeId := device.deviceOptionId,
         options := encodeOptions device.options, x := device.x, y := device.y } : Device))
      = Msg.removeDevice ∘ fun v => v.id := rfl
  rw [e1, h1]
  have h3 := performAll_removeWires H (doc.wires.map fun v => v.id)
  simp only [List.map_map] at h3
  have e3 : (fun wire : Wire => Msg.removeWire wire.id) ∘ (fun wire : Wire =>
      ({ id := wire.id, startConnection := wire.startConnection,
         endConnection := wire.endConnection, startDeviceId := wire.startDeviceId,
         endDeviceId := wire.endDeviceId } : Wire))
      = Msg.removeWire ∘ fun v => v.id := rfl
  have h4 := performAll_removeCustomAssets H (doc.customAssets.map fun v => v.id)
  simp only [List.map_map] at h4
  have e4 : (fun customAsset : CustomAsset => Msg.removeCustomAsset customAsset.id)
      = Msg.removeCustomAsset ∘ fun v => v.id := rfl
  rw [performAll_removeTerrain, e3, h3, e4, h4, performAll_addCustomAssets,
    performAll_placeDevices, performAll_placeTerrain, performAll_placeWires]
  simp [filter_offPositions_self]
  exact ⟨fun a ha => ⟨a, ha, rfl⟩, fun a ha => ⟨a, ha, rfl⟩, fun a ha => ⟨a, ha, rfl⟩⟩


theorem hostWires_eq_enum (H : Host) (ws : List Wire) :
    ∀ n, hostWires H n ws
      = (ws.enumFrom n).map fun iw => { iw.2 with id := H.wireId iw.1 } := by
  induction ws with
  | nil => intro n; rfl
  | cons v vs ih => intro n; simp [hostWires, List.enumFrom, ih]

theorem hostWires_length (H : Host) (ws : List Wire) :
    ∀ n, (hostWires H n ws).length = ws.length := by
  induction ws with
  | nil => intro n; rfl
  | cons v vs ih => intro n; simp [hostWires, ih]

/-- What `getMap` captures after the host performed `goToState(state)`. -/
theorem getMap_performAll_goToState (H : Host) (doc : LiveDoc) (state : Snapshot) :
    getMap (H.performAll doc (goToState doc state))
      = { tiles := state.tiles
          devices := state.devices.map fun v =>
            { v with options := encodeOptions (H.decodeOptions v.options) }
          wires := hostWires H doc.wiresPlaced state.wires
          customAssets := state.customAssets } := by
  rw [performAll_goToState]
  simp only [getMap, List.map_map]
  congr 1
  exact List.map_id _


theorem hostWires_endpoints (H : Host) (ws : List Wire) :
    ∀ n, (hostWires H n ws).map Wire.endpoints = ws.map Wire.endpoints := by
  induction ws with
  | nil => intro n; rfl
  | cons v vs ih => intro n; simp [hostWires, ih, Wire.endpoints]

theorem hostWires_getElem? (H : Host) (ws : List Wire) :
    ∀ (n i : Nat) (v : Wire), (hostWires H n ws)[i]? = some v →
      v.id = H.wireId (n + i) := by
  induction ws with
  | nil => intro n i v h; simp [hostWires] at h
  | cons x xs ih =>
    intro n i v h
    cases i with
    | zero =>
      simp [hostWires] at h
      rw [← h]; rfl
    | succ j =>
      simp [hostWires] at h
      have := ih (n + 1) j v h
      rw [this]; congr 1; omega

/-- The messages of `goToState` do not depend on the wire ids of the target. -/
theorem goToState_forgets_wire_ids (doc : LiveDoc) (s : Snapshot) (f : Wire → String) :
    goToState doc { s with wires := s.wires.map fun v => { v with id := f v } }
      = goToState doc s := by
  simp [goToState, List.map_map, Function.comp_def]

/-! ## C2 and C3: checkout -/

theorem checkout_found (H : Host) (e : Env) (commitId : String) (w : World) (P : String)
    (b : Branch) (c : Commit)
    (hP : truthyName (getCurrentProject w.store) = some P)
    (hb : getBranch (getProject w.store P).branches (getProject w.store P).currentBranch
      = PropLookup.own b)
    (hfind : b.commits.find? (fun x => x.id = commitId) = some c) :
    checkout H e commitId w = some (((w.apply H c.state).save e
      ((getProject w.store P).withBranch (getProject w.store P).currentBranch
        { b with head := some c.id })).notify
      (Note.success ("Checked out: " ++ c.message))) := by
  simp only [checkout, hP, hb, hfind]
  rfl

theorem checkout_not_found (H : Host) (e : Env) (commitId : String) (w : World) (P : String)
    (b : Branch)
    (hP : truthyName (getCurrentProject w.store) = some P)
    (hb : getBranch (getProject w.store P).branches (getProject w.store P).currentBranch
      = PropLookup.own b)
    (hfind : b.commits.find? (fun x => x.id = commitId) = none) :
    checkout H e commitId w = some (w.notify (Note.error "Commit not found")) := by
  simp only [checkout, hP, hb, hfind]

theorem find?_of_nodup_ids {commits : List Commit} {c : Commit}
    (hnd : (commits.map fun x => x.id).Nodup) (hc : c ∈ commits) :
    commits.find? (fun x => x.id = c.id) = some c := by
  induction commits with
  | nil => cases hc
  | cons a as ih =>
    simp only [List.map_cons, List.nodup_cons] at hnd
    rcases List.mem_cons.1 hc with h | h
    · rw [h]; simp
    · have hne : a.id ≠ c.id := by
        intro heq
        apply hnd.1
        rw [heq]
        exact List.mem_map_of_mem _ h
      simp [List.find?_cons, hne, ih hnd.2 h]

/-- C2, as the code has it: after `checkout(c.id)` for a commit `c` of the
    current branch's log (the ids of the log being unique), with a host that
    performs every message as sent (and reads back the options text it is sent),
    `getMap()` captures the tiles, devices and custom assets of `c.state`
    unchanged and the wires of `c.state` in order with their endpoints, each
    under the id the host gave it on creation. -/
theorem checkout_then_getMap (H : Host) (e : Env) (w : World) (P : String) (b : Branch)
    (c : Commit)
    (hP : truthyName (getCurrentProject w.store) = some P)
    (hb : getBranch (getProject w.store P).branches (getProject w.store P).currentBranch
      = PropLookup.own b)
    (hc : c ∈ b.commits) (hids : (b.commits.map fun x => x.id).Nodup)
    (hdec : ∀ v ∈ c.state.devices, encodeOptions (H.decodeOptions v.options) = v.options) :
    ∃ w', checkout H e c.id w = some w' ∧
      (getMap w'.doc).tiles = c.state.tiles ∧
      (getMap w'.doc).devices = c.state.devices ∧
      (getMap w'.doc).customAssets = c.state.customAssets ∧
      (getMap w'.doc).wires = hostWires H w.doc.wiresPlaced c.state.wires ∧
      (getMap w'.doc).wires.map Wire.endpoints = c.state.wires.map Wire.endpoints ∧
      (∀ i v, (getMap w'.doc).wires[i]? = some v → v.id = H.wireId (w.doc.wiresPlaced + i)) := by
  have hfind := find?_of_nodup_ids hids hc
  refine ⟨_, checkout_found H e c.id w P b c hP hb hfind, ?_⟩
  have hdoc : ((((w.apply H c.state).save e
      ((getProject w.store P).withBranch (getProject w.store P).currentBranch
        { b with head := some c.id })).notify
      (Note.success ("Checked out: " ++ c.message)))).doc
      = H.performAll w.doc (goToState w.doc c.state) := rfl
  rw [hdoc, getMap_performAll_goToState]
  refine ⟨rfl, ?_, rfl, rfl, hostWires_endpoints _ _ _, fun i v h => hostWires_getElem? _ _ _ i v h⟩
  simp only
  conv_rhs => rw [← List.map_id c.state.devices]
  apply List.map_congr_left
  intro v hv
  simp [hdec v hv]

/-- Worked instance of the amended C2: checking out the wired commit. -/
theorem checkout_then_getMap_witness :
    truthyName (getCurrentProject wiredWorld.store) = some "Demo" ∧
    ([wiredCommit].map fun x => x.id).Nodup ∧
    (∀ v ∈ wiredCommit.state.devices,
      encodeOptions (plainHost.decodeOptions v.options) = v.options) ∧
    ∃ w', checkout plainHost (envAt 9) wiredCommit.id wiredWorld = some w' ∧
      (getMap w'.doc).tiles = wiredCommit.state.tiles ∧
      (getMap w'.doc).devices = wiredCommit.state.devices ∧
      (getMap w'.doc).customAssets = wiredCommit.state.customAssets ∧
      (getMap w'.doc).wires
        = hostWires plainHost wiredWorld.doc.wiresPlaced wiredCommit.state.wires ∧
      (getMap w'.doc).wires.map Wire.endpoints
        = wiredCommit.state.wires.map Wire.endpoints ∧
      (∀ i v, (getMap w'.doc).wires[i]? = some v →
        v.id = plainHost.wireId (wiredWorld.doc.wiresPlaced + i)) :=
  ⟨by decide, by decide, by decide,
   checkout_then_getMap plainHost (envAt 9) wiredWorld "Demo"
    { name := "main", commits := [wiredCommit], head := some "c1" } wiredCommit
    (by decide) (by decide) (by decide) (by decide) (by decide)⟩

/-- C2 as stated fails: `wiredCommit` is in the current branch's log, and after
    `checkout(wiredCommit.id)` the captured snapshot differs from
    `wiredCommit.state` (the wire carries the host's id, not "w1"). -/
theorem checkout_roundtrip_counterexample :
    getProject wiredWorld.store "Demo" = wiredProject ∧
    (∃ b, getBranch wiredProject.branches wiredProject.currentBranch = PropLookup.own b ∧
      wiredCommit ∈ b.commits) ∧
    ∃ w', checkout plainHost (envAt 9) wiredCommit.id wiredWorld = some w' ∧
      getMap w'.doc ≠ wiredCommit.state ∧
      (getMap w'.doc).devices = wiredCommit.state.devices ∧
      (getMap w'.doc).wires.map (fun v => v.id) = ["hw0"] ∧
      wiredCommit.state.wires.map (fun v => v.id) = ["w1"] := by
  refine ⟨by decide, ⟨_, rfl, by decide⟩, _, rfl, ?_, ?_, ?_, ?_⟩ <;> decide

theorem find?_id_some {commits : List Commit} {commitId : String} {c : Commit}
    (hc : c ∈ commits) (hid : c.id = commitId) :
    ∃ c0, commits.find? (fun x => x.id = commitId) = some c0 ∧ c0.id = commitId := by
  cases hf : commits.find? (fun x => x.id = commitId) with
  | none =>
    rw [List.find?_eq_none] at hf
    have := hf c hc
    simp [hid] at this
  | some c0 =>
    have := List.find?_some hf
    exact ⟨c0, rfl, by simpa using this⟩

/-- C3, as the code has it: with a project selected, `checkout(commitId)` reports "Commit not found",
    sends nothing and leaves the store as it is when no commit of the current
    branch's log has that id; otherwise (the store accepting the write) it sets
    the current branch's head to `commitId` and leaves that branch's log, every
    other branch, the set of branches, `currentBranch` and the stash unchanged. -/
theorem checkout_spec (H : Host) (e : Env) (commitId : String) (w : World) (P : String)
    (b : Branch)
    (hP : truthyName (getCurrentProject w.store) = some P)
    (hb : getBranch (getProject w.store P).branches (getProject w.store P).currentBranch
      = PropLookup.own b) :
    ((∀ c ∈ b.commits, c.id ≠ commitId) →
      ∃ w', checkout H e commitId w = some w' ∧
        w'.notes = w.notes ++ [Note.error "Commit not found"] ∧
        w'.sent = w.sent ∧ w'.doc = w.doc ∧ w'.store = w.store) ∧
    (∀ c ∈ b.commits, c.id = commitId → e.setOk = true →
      ∃ w', checkout H e commitId w = some w' ∧
        getBranch (getProject w'.store P).branches (getProject w'.store P).currentBranch
          = PropLookup.own { name := b.name, commits := b.commits, head := some commitId } ∧
        (getProject w'.store P).currentBranch = (getProject w.store P).currentBranch ∧
        (getProject w'.store P).stash = (getProject w.store P).stash ∧
        (getProject w'.store P).name = (getProject w.store P).name ∧
        (getProject w'.store P).branches.map Prod.fst
          = (getProject w.store P).branches.map Prod.fst ∧
        (∀ n, n ≠ (getProject w.store P).currentBranch →
          ownBranch (getProject w'.store P).branches n
            = ownBranch (getProject w.store P).branches n)) := by
  constructor
  · intro hnone
    have hfind : b.commits.find? (fun x => x.id = commitId) = none := by
      rw [List.find?_eq_none]
      intro x hx
      simpa using hnone x hx
    exact ⟨_, checkout_not_found H e commitId w P b hP hb hfind, rfl, rfl, rfl, rfl⟩
  · intro c hc hid hok
    obtain ⟨c0, hfind, hid0⟩ := find?_id_some hc hid
    refine ⟨_, checkout_found H e commitId w P b c0 hP hb hfind, ?_⟩
    have hkey : getProjectKey ((getProject w.store P).withBranch
        (getProject w.store P).currentBranch { b with head := some c0.id }).name
        = getProjectKey P := getProject_key w.store P
    have hget : getProject ((((w.apply H c0.state).save e
        ((getProject w.store P).withBranch (getProject w.store P).currentBranch
          { b with head := some c0.id })).notify
        (Note.success ("Checked out: " ++ c0.message)))).store P
        = (getProject w.store P).withBranch (getProject w.store P).currentBranch
          { b with head := some c0.id } := by
      simp only [World.notify, World.save, World.apply, hok]
      exact getProject_saveProject _ _ _ hkey
    rw [hget]
    have hown := (getBranch_own_iff _ _ _).1 hb
    refine ⟨?_, rfl, rfl, rfl, ?_, ?_⟩
    · simp only [Project.withBranch, hid0]
      exact getBranch_setBranch_self _ _ _
    · exact setBranch_keys _ _ _ _ hown
    · intro n hn
      exact ownBranch_setBranch_other _ _ _ _ hn

/-- Worked instance of the amended C3: an unknown id, and the id "c1" while the
    head is on "c2". -/
theorem checkout_spec_witness :
    truthyName (getCurrentProject twoCommitWorld.store) = some "Demo" ∧
    (∃ w', checkout plainHost (envAt 9) "zz" twoCommitWorld = some w' ∧
        w'.notes = twoCommitWorld.notes ++ [Note.error "Commit not found"] ∧
        w'.sent = twoCommitWorld.sent ∧ w'.doc = twoCommitWorld.doc ∧
        w'.store = twoCommitWorld.store) ∧
    (∃ w', checkout plainHost (envAt 9) "c1" twoCommitWorld = some w' ∧
        getBranch (getProject w'.store "Demo").branches
            (getProject w'.store "Demo").currentBranch
          = PropLookup.own
              { name := twoCommitBranch.name, commits := twoCommitBranch.commits,
                head := some "c1" } ∧
        (getProject w'.store "Demo").currentBranch
          = (getProject twoCommitWorld.store "Demo").currentBranch ∧
        (getProject w'.store "Demo").stash = (getProject twoCommitWorld.store "Demo").stash ∧
        (getProject w'.store "Demo").name = (getProject twoCommitWorld.store "Demo").name ∧
        (getProject w'.store "Demo").branches.map Prod.fst
          = (getProject twoCommitWorld.store "Demo").branches.map Prod.fst ∧
        (∀ n, n ≠ (getProject twoCommitWorld.store "Demo").currentBranch →
          ownBranch (getProject w'.store "Demo").branches n
            = ownBranch (getProject twoCommitWorld.store "Demo").branches n)) :=
  ⟨by decide,
   (checkout_spec plainHost (envAt 9) "zz" twoCommitWorld "Demo" twoCommitBranch
      (by decide) (by decide)).1 (by decide),
   (checkout_spec plainHost (envAt 9) "c1" twoCommitWorld "Demo" twoCommitBranch
      (by decide) (by decide)).2 wiredCommit (by decide) (by decide) (by decide)⟩

/-! ## C4, C5 and C6: creating and switching branches -/

theorem createBranch_exists (e : Env) (name : String) (w : World) (P : String)
    (hP : truthyName (getCurrentProject w.store) = some P)
    (h : (getBranch (getProject w.store P).branches name).truthy = true) :
    createBranch e name w = some (w.notify (Note.error "Branch already exists")) := by
  simp only [createBranch, hP, h, if_true]

theorem getBranch_truthy_of_inherited (bs : List (String × Branch)) (name : String)
    (h : name ∈ objectPrototypeKeys) : (getBranch bs name).truthy = true := by
  unfold getBranch
  split
  · rfl
  · simp [h, PropLookup.truthy]

theorem getBranch_truthy_iff (bs : List (String × Branch)) (name : String)
    (h : name ∉ objectPrototypeKeys) :
    (getBranch bs name).truthy = true ↔ ∃ b, ownBranch bs name = some b := by
  unfold getBranch
  split
  · rename_i b hb
    simp [PropLookup.truthy, hb]
  · rename_i hb
    simp [h, PropLookup.truthy, hb]

theorem createBranch_new (e : Env) (name : String) (w : World) (P : String) (b : Branch)
    (hP : truthyName (getCurrentProject w.store) = some P)
    (hb : getBranch (getProject w.store P).branches (getProject w.store P).currentBranch
      = PropLookup.own b)
    (h : (getBranch (getProject w.store P).branches name).truthy = false) :
    createBranch e name w = some ((w.save e
      ((getProject w.store P).withBranch name
        { name := name, commits := b.commits, head := b.head })).notify
      (Note.success ("Created branch: " ++ name))) := by
  simp only [createBranch, hP, h, hb]
  rfl

/-- The behaviour of `createBranch(name)` for a name that is not a member of
    `Object.prototype`: it fails exactly when `name` is a key of `branches`, and
    otherwise appends one branch copying the current branch's log and head. -/
theorem createBranch_spec_plain_name (e : Env) (name : String) (w : World) (P : String)
    (b : Branch)
    (hP : truthyName (getCurrentProject w.store) = some P)
    (hb : getBranch (getProject w.store P).branches (getProject w.store P).currentBranch
      = PropLookup.own b)
    (hname : name ∉ objectPrototypeKeys) :
    ((∃ old, ownBranch (getProject w.store P).branches name = some old) →
      createBranch e name w = some (w.notify (Note.error "Branch already exists"))) ∧
    (ownBranch (getProject w.store P).branches name = none → e.setOk = true →
      ∃ w', createBranch e name w = some w' ∧
        w'.notes = w.notes ++ [Note.success ("Created branch: " ++ name)] ∧
        w'.sent = w.sent ∧ w'.doc = w.doc ∧
        getProject w'.store P = (getProject w.store P).withBranch name (b.forkAs name) ∧
        ownBranch (getProject w'.store P).branches name = some (b.forkAs name) ∧
        (∀ m, m ≠ name → ownBranch (getProject w'.store P).branches m
          = ownBranch (getProject w.store P).branches m) ∧
        (arrayIndex? name = none →
          (getProject w'.store P).branches
            = (getProject w.store P).branches ++ [(name, b.forkAs name)])) := by
  constructor
  · intro hex
    exact createBranch_exists e name w P hP ((getBranch_truthy_iff _ _ hname).2 hex)
  · intro hnone hok
    have hf : (getBranch (getProject w.store P).branches name).truthy = false := by
      cases ht : (getBranch (getProject w.store P).branches name).truthy with
      | false => rfl
      | true =>
        obtain ⟨old, hold⟩ := (getBranch_truthy_iff _ _ hname).1 ht
        rw [hnone] at hold
        cases hold
    have hkey : getProjectKey ((getProject w.store P).withBranch name
        (b.forkAs name)).name = getProjectKey P :=
      getProject_key w.store P
    have hget : getProject (((w.save e
        ((getProject w.store P).withBranch name (b.forkAs name))).notify
        (Note.success ("Created branch: " ++ name)))).store P
        = (getProject w.store P).withBranch name (b.forkAs name) := by
      simp only [World.notify, World.save, hok]
      exact getProject_saveProject _ _ _ hkey
    refine ⟨_, createBranch_new e name w P b hP hb hf, rfl, rfl, rfl, hget, ?_, ?_, ?_⟩
    · exact (congrArg (fun q : Project => ownBranch q.branches name) hget).trans
        (ownBranch_setBranch_self _ _ _)
    · intro m hm
      exact (congrArg (fun q : Project => ownBranch q.branches m) hget).trans
        (ownBranch_setBranch_other _ _ _ _ hm)
    · intro hidx
      exact (congrArg (fun q : Project => q.branches) hget).trans
        (setBranch_of_not_own _ _ _ hnone hidx)

/-- C4 at the failing input: on the fresh project "Demo", whose only branch is
    `main`, `createBranch("constructor")` reports "Branch already exists" and
    adds nothing, although "constructor" is not a key of `branches`. -/
theorem createBranch_constructor_rejected :
    (getProject demoWorld.store "Demo").branches.map Prod.fst = ["main"] ∧
    ownBranch (getProject demoWorld.store "Demo").branches "constructor" = none ∧
    createBranch (envAt 1) "constructor" demoWorld
      = some (demoWorld.notify (Note.error "Branch already exists")) := by
  decide

/-- Every name inherited from `Object.prototype` is refused by `createBranch`,
    whatever the project holds. -/
theorem createBranch_inherited_rejected (e : Env) (name : String) (w : World) (P : String)
    (hP : truthyName (getCurrentProject w.store) = some P)
    (hname : name ∈ objectPrototypeKeys) :
    createBranch e name w = some (w.notify (Note.error "Branch already exists")) :=
  createBranch_exists e name w P hP (getBranch_truthy_of_inherited _ _ hname)

theorem switchBranch_absent (H : Host) (e : Env) (name : String) (w : World) (P : String)
    (hP : truthyName (getCurrentProject w.store) = some P)
    (h : (getBranch (getProject w.store P).branches name).truthy = false) :
    switchBranch H e name w = some (w.notify (Note.error "Branch not found")) := by
  simp [switchBranch, hP, h]

theorem switchBranch_own (H : Host) (e : Env) (name : String) (w : World) (P : String)
    (b : Branch)
    (hP : truthyName (getCurrentProject w.store) = some P)
    (hb : getBranch (getProject w.store P).branches name = PropLookup.own b) :
    switchBranch H e name w = some (((afterHeadApply H w b).save e
      { getProject w.store P with currentBranch := name }).notify
      (Note.success ("Switched to branch: " ++ name))) := by
  simp only [switchBranch, hP, hb, PropLookup.truthy]
  rfl

theorem switchBranch_inherited (H : Host) (e : Env) (name : String) (w : World) (P : String)
    (hP : truthyName (getCurrentProject w.store) = some P)
    (hb : getBranch (getProject w.store P).branches name = PropLookup.inherited) :
    switchBranch H e name w = some ((w.save e
      { getProject w.store P with currentBranch := name }).notify
      (Note.success ("Switched to branch: " ++ name))) := by
  simp only [switchBranch, hP, hb, PropLookup.truthy]
  rfl

/-- The behaviour of `switchBranch(name)` for a name that is not a member of
    `Object.prototype`. -/
theorem switchBranch_spec_plain_name (H : Host) (e : Env) (name : String) (w : World)
    (P : String)
    (hP : truthyName (getCurrentProject w.store) = some P)
    (hname : name ∉ objectPrototypeKeys) :
    (ownBranch (getProject w.store P).branches name = none →
      ∃ w', switchBranch H e name w = some w' ∧
        w'.notes = w.notes ++ [Note.error "Branch not found"] ∧
        w'.sent = w.sent ∧ w'.doc = w.doc ∧ w'.store = w.store) ∧
    (∀ b, ownBranch (getProject w.store P).branches name = some b → e.setOk = true →
      ∃ w', switchBranch H e name w = some w' ∧
        getProject w'.store P = { getProject w.store P with currentBranch := name } ∧
        (b.head = none → w'.sent = w.sent ∧ w'.doc = w.doc) ∧
        (∀ c, headTruthy b.head = true →
          b.commits.find? (fun c => some c.id = b.head) = some c →
          w'.sent = w.sent ++ goToState w.doc c.state ∧
          w'.doc = H.performAll w.doc (goToState w.doc c.state))) := by
  constructor
  · intro hnone
    have hf : (getBranch (getProject w.store P).branches name).truthy = false := by
      cases ht : (getBranch (getProject w.store P).branches name).truthy with
      | false => rfl
      | true =>
        obtain ⟨old, hold⟩ := (getBranch_truthy_iff _ _ hname).1 ht
        rw [hnone] at hold
        cases hold
    exact ⟨_, switchBranch_absent H e name w P hP hf, rfl, rfl, rfl, rfl⟩
  · intro b hown hok
    have hb := (getBranch_own_iff _ _ _).2 hown
    refine ⟨_, switchBranch_own H e name w P b hP hb, ?_, ?_, ?_⟩
    · simp only [World.notify, World.save, hok]
      have hst : (afterHeadApply H w b).store = w.store := by
        unfold afterHeadApply
        split
        · split <;> rfl
        · rfl
      rw [hst]
      exact getProject_saveProject _ _ _ (getProject_key w.store P)
    · intro hnull
      simp [World.notify, World.save, afterHeadApply, hnull, headTruthy]
    · intro c ht hfind
      simp [World.notify, World.save, afterHeadApply, ht, hfind, World.apply]

/-- C6 at the failing input: on the fresh project "Demo", `switchBranch("toString")`
    does not report "Branch not found": it announces the switch and persists
    `currentBranch = "toString"`, which is not a key of `branches`. -/
theorem switchBranch_toString_accepted :
    ownBranch (getProject demoWorld.store "Demo").branches "toString" = none ∧
    ∃ w', switchBranch plainHost (envAt 1) "toString" demoWorld = some w' ∧
      w'.notes = [Note.success "Switched to branch: toString"] ∧
      (getProject w'.store "Demo").currentBranch = "toString" ∧
      (getProject w'.store "Demo").branches.map Prod.fst = ["main"] ∧
      getProject w'.store "Demo" ≠ getProject demoWorld.store "Demo" := by
  refine ⟨by decide, _, rfl, ?_, ?_, ?_, ?_⟩ <;> decide

/-- C5 at the failing input: on project "Demo" with one commit on `main`,
    `createBranch("constructor")` is refused, the following
    `switchBranch("constructor")` is accepted, and the project is left with a
    `currentBranch` that names no branch, so there is no head or log to compare
    with those of `main`. -/
theorem fork_constructor_diverges :
    ownBranch (getProject wiredWorld.store "Demo").branches "constructor" = none ∧
    ∃ w1 w2, createBranch (envAt 2) "constructor" wiredWorld = some w1 ∧
      w1.notes = [Note.error "Branch already exists"] ∧
      switchBranch plainHost (envAt 3) "constructor" w1 = some w2 ∧
      (getProject w2.store "Demo").currentBranch = "constructor" ∧
      getBranch (getProject w2.store "Demo").branches
        (getProject w2.store "Demo").currentBranch = PropLookup.inherited ∧
      ownBranch (getProject w2.store "Demo").branches "main"
        = some { name := "main", commits := [wiredCommit], head := some "c1" } := by
  refine ⟨by decide, _, _, rfl, ?_, rfl, ?_, ?_, ?_⟩ <;> decide

/-! ## C7 and C8: the stash -/

theorem stashSave_selected (e : Env) (m : String) (w : World) (P : String)
    (hP : truthyName (getCurrentProject w.store) = some P) :
    stashSave e m w = some ((w.save e
      { getProject w.store P with
        stash := stashEntryOf e m (getMap w.doc) :: (getProject w.store P).stash }).notify
      (Note.success ("Stashed: " ++ orDefault m "WIP"))) := by
  simp only [stashSave, hP]
  rfl

theorem stashPop_empty (H : Host) (e : Env) (w : World) (P : String)
    (hP : truthyName (getCurrentProject w.store) = some P)
    (hs : (getProject w.store P).stash = []) :
    stashPop H e w = some (w.notify (Note.error "No stash entries")) := by
  simp only [stashPop, hP, hs]

theorem stashPop_front (H : Host) (e : Env) (w : World) (P : String) (entry : StashEntry)
    (rest : List StashEntry)
    (hP : truthyName (getCurrentProject w.store) = some P)
    (hs : (getProject w.store P).stash = entry :: rest) :
    stashPop H e w = some (((w.apply H entry.state).save e
      { getProject w.store P with stash := rest }).notify
      (Note.success ("Applied stash: " ++ entry.message))) := by
  simp only [stashPop, hP, hs]

theorem getMap_wires (doc : LiveDoc) : (getMap doc).wires = doc.wires := by
  simp only [getMap]
  exact List.map_id _

/-- C7, as the code has it: with a project selected and the store accepting both
    writes, `stashSave(m)` puts the captured snapshot in front of the stash and
    the following `stashPop()` passes exactly that snapshot to `goToState` and
    leaves the project record (the stash included) as it was before the save;
    the live document then has the tiles, devices and custom assets it had, and
    its wires in order with their endpoints, each under a new id given by the
    host. -/
theorem stashSave_then_stashPop (H : Host) (e1 e2 : Env) (m : String) (w : World)
    (P : String)
    (hP : truthyName (getCurrentProject w.store) = some P)
    (hok1 : e1.setOk = true) (hok2 : e2.setOk = true)
    (hdec : ∀ v ∈ w.doc.devices, H.decodeOptions (encodeOptions v.options) = v.options) :
    ∃ w1 w2, stashSave e1 m w = some w1 ∧ stashPop H e2 w1 = some w2 ∧
      (getProject w1.store P).stash
        = stashEntryOf e1 m (getMap w.doc) :: (getProject w.store P).stash ∧
      w1.doc = w.doc ∧
      w2.sent = w.sent ++ goToState w.doc (getMap w.doc) ∧
      (getProject w2.store P).stash = (getProject w.store P).stash ∧
      getProject w2.store P = getProject w.store P ∧
      w2.doc.tiles = w.doc.tiles ∧
      w2.doc.devices = w.doc.devices ∧
      w2.doc.customAssets = w.doc.customAssets ∧
      w2.doc.wires = hostWires H w.doc.wiresPlaced w.doc.wires ∧
      w2.doc.wires.map Wire.endpoints = w.doc.wires.map Wire.endpoints := by
  have hkey1 : getProjectKey ({ getProject w.store P with
      stash := stashEntryOf e1 m (getMap w.doc) :: (getProject w.store P).stash } : Project).name
      = getProjectKey P := getProject_key w.store P
  have hget1 : getProject (saveProject true w.store { getProject w.store P with
      stash := stashEntryOf e1 m (getMap w.doc) :: (getProject w.store P).stash }) P
      = { getProject w.store P with
          stash := stashEntryOf e1 m (getMap w.doc) :: (getProject w.store P).stash } :=
    getProject_saveProject _ _ _ hkey1
  have h1 := stashSave_selected e1 m w P hP
  simp only [World.save, hok1] at h1
  generalize hw1 : (({ w with store := saveProject true w.store { getProject w.store P with
      stash := stashEntryOf e1 m (getMap w.doc) :: (getProject w.store P).stash } } :
      World).notify (Note.success ("Stashed: " ++ orDefault m "WIP"))) = w1 at h1
  have hstore1 : w1.store = saveProject true w.store { getProject w.store P with
      stash := stashEntryOf e1 m (getMap w.doc) :: (getProject w.store P).stash } := by
    rw [← hw1]; rfl
  have hdoc1 : w1.doc = w.doc := by rw [← hw1]; rfl
  have hsent1 : w1.sent = w.sent := by rw [← hw1]; rfl
  have hP1 : truthyName (getCurrentProject w1.store) = some P := by
    rw [hstore1]
    simpa [getCurrentProject, saveProject_currentProject] using hP
  have hp1 : getProject w1.store P = { getProject w.store P with
      stash := stashEntryOf e1 m (getMap w.doc) :: (getProject w.store P).stash } := by
    rw [hstore1]; exact hget1
  have hs1 : (getProject w1.store P).stash
      = stashEntryOf e1 m (getMap w.doc) :: (getProject w.store P).stash := by
    rw [hp1]
  have h2 := stashPop_front H e2 w1 P _ _ hP1 hs1
  have hkey2 : getProjectKey ({ getProject w1.store P with
      stash := (getProject w.store P).stash } : Project).name = getProjectKey P :=
    getProject_key w1.store P
  have hget2 : getProject (saveProject true w1.store { getProject w1.store P with
      stash := (getProject w.store P).stash }) P
      = { getProject w1.store P with stash := (getProject w.store P).stash } :=
    getProject_saveProject _ _ _ hkey2
  have hdocEq : H.performAll w.doc (goToState w.doc (getMap w.doc))
      = { w.doc with wires := hostWires H w.doc.wiresPlaced w.doc.wires
                     wiresPlaced := w.doc.wiresPlaced + w.doc.wires.length } := by
    rw [performAll_goToState, getMap_wires]
    have hdev : (getMap w.doc).devices.map (fun v =>
        ({ id := v.id, deviceOptionId := v.deviceTypeId,
           options := H.decodeOptions v.options, x := v.x, y := v.y } : LiveDevice))
        = w.doc.devices := by
      simp only [getMap, List.map_map]
      conv_rhs => rw [← List.map_id w.doc.devices]
      apply List.map_congr_left
      intro v hv
      simp [hdec v hv]
    rw [hdev]
    rfl
  refine ⟨w1, _, h1, h2, hs1, hdoc1, ?_, ?_, ?_, ?_, ?_, ?_, ?_, ?_⟩
  · simp [World.notify, World.save, World.apply, stashEntryOf, hdoc1, hsent1]
  · simp only [World.notify, World.save, World.apply, hok2]
    rw [hget2]
  · simp only [World.notify, World.save, World.apply, hok2]
    rw [hget2, hp1]
  · simp only [World.notify, World.save, World.apply, stashEntryOf, hdoc1, hdocEq]
  · simp only [World.notify, World.save, World.apply, stashEntryOf, hdoc1, hdocEq]
  · simp only [World.notify, World.save, World.apply, stashEntryOf, hdoc1, hdocEq]
  · simp only [World.notify, World.save, World.apply, stashEntryOf, hdoc1, hdocEq]
  · simp only [World.notify, World.save, World.apply, stashEntryOf, hdoc1, hdocEq]
    exact hostWires_endpoints _ _ _

/-- Worked instance of the amended C7 on the wired document. -/
theorem stashSave_then_stashPop_witness :
    truthyName (getCurrentProject stashWorld.store) = some "Demo" ∧
    (∀ v ∈ stashWorld.doc.devices,
      plainHost.decodeOptions (encodeOptions v.options) = v.options) ∧
    ∃ w1 w2, stashSave (envAt 1) "try" stashWorld = some w1 ∧
      stashPop plainHost (envAt 2) w1 = some w2 ∧
      (getProject w1.store "Demo").stash
        = stashEntryOf (envAt 1) "try" (getMap stashWorld.doc)
            :: (getProject stashWorld.store "Demo").stash ∧
      w1.doc = stashWorld.doc ∧
      w2.sent = stashWorld.sent ++ goToState stashWorld.doc (getMap stashWorld.doc) ∧
      (getProject w2.store "Demo").stash = (getProject stashWorld.store "Demo").stash ∧
      getProject w2.store "Demo" = getProject stashWorld.store "Demo" ∧
      w2.doc.tiles = stashWorld.doc.tiles ∧
      w2.doc.devices = stashWorld.doc.devices ∧
      w2.doc.customAssets = stashWorld.doc.customAssets ∧
      w2.doc.wires = hostWires plainHost stashWorld.doc.wiresPlaced stashWorld.doc.wires ∧
      w2.doc.wires.map Wire.endpoints = stashWorld.doc.wires.map Wire.endpoints :=
  ⟨by decide, by decide,
   stashSave_then_stashPop plainHost (envAt 1) (envAt 2) "try" stashWorld "Demo"
    (by decide) (by decide) (by decide) (by decide)⟩

/-- C7 as stated fails: after `stashSave` and `stashPop` on `wiredDoc` the live
    document is captured differently from before; its wire is no longer "w1". -/
theorem stash_roundtrip_counterexample :
    ∃ w1 w2, stashSave (envAt 1) "try" stashWorld = some w1 ∧
      stashPop plainHost (envAt 2) w1 = some w2 ∧
      getMap w2.doc ≠ getMap stashWorld.doc ∧
      w2.doc.wires.map (fun v => v.id) = ["hw1"] ∧
      stashWorld.doc.wires.map (fun v => v.id) = ["w1"] := by
  refine ⟨_, _, rfl, rfl, ?_, ?_, ?_⟩ <;> decide

theorem deleteStash_invalid (e : Env) (index : Int) (w : World) (P : String)
    (hP : truthyName (getCurrentProject w.store) = some P)
    (h : index < 0 ∨ index ≥ ((getProject w.store P).stash.length : Int)) :
    deleteStash e index w = some (w.notify (Note.error "Invalid stash index")) := by
  simp only [deleteStash, hP, h, if_true]

theorem deleteStash_valid (e : Env) (index : Int) (w : World) (P : String)
    (hP : truthyName (getCurrentProject w.store) = some P)
    (h0 : 0 ≤ index) (h1 : index < ((getProject w.store P).stash.length : Int)) :
    ∃ entry, (getProject w.store P).stash[index.toNat]? = some entry ∧
      deleteStash e index w = some ((w.save e
        { getProject w.store P with
          stash := (getProject w.store P).stash.eraseIdx index.toNat }).notify
        (Note.success ("Deleted stash: " ++ entry.message))) := by
  have hlt : index.toNat < (getProject w.store P).stash.length := by omega
  have hcond : ¬ (index < 0 ∨ index ≥ ((getProject w.store P).stash.length : Int)) := by omega
  refine ⟨(getProject w.store P).stash[index.toNat], List.getElem?_eq_getElem hlt, ?_⟩
  have hsplice : splice1 (getProject w.store P).stash index
      = (getProject w.store P).stash.eraseIdx index.toNat := by
    have hneg : ¬ index < 0 := by omega
    simp only [splice1, hneg, if_false]
    congr 1
    omega
  simp only [deleteStash, hP, hcond, if_false, List.get?_eq_getElem?,
    List.getElem?_eq_getElem hlt, hsplice]

/-- C8, as the code has it: with a project selected, `deleteStash(i)` for `i < 0` or `i >= stash.length`
    reports the invalid-index error and leaves the store (hence the stash and the
    whole project) and the live document untouched; for `0 <= i < stash.length`
    (the store accepting the write) it removes exactly the entry at position `i`,
    keeping the other entries in order, changes nothing else of the project, and
    sends nothing. -/
theorem deleteStash_spec (e : Env) (index : Int) (w : World) (P : String)
    (hP : truthyName (getCurrentProject w.store) = some P) :
    ((index < 0 ∨ index ≥ ((getProject w.store P).stash.length : Int)) →
      ∃ w', deleteStash e index w = some w' ∧
        w'.notes = w.notes ++ [Note.error "Invalid stash index"] ∧
        w'.sent = w.sent ∧ w'.doc = w.doc ∧ w'.store = w.store) ∧
    (0 ≤ index → index < ((getProject w.store P).stash.length : Int) → e.setOk = true →
      ∃ w', deleteStash e index w = some w' ∧
        w'.sent = w.sent ∧ w'.doc = w.doc ∧
        getProject w'.store P =
          { getProject w.store P with
            stash := (getProject w.store P).stash.eraseIdx index.toNat } ∧
        (getProject w'.store P).stash
          = (getProject w.store P).stash.take index.toNat
              ++ (getProject w.store P).stash.drop (index.toNat + 1) ∧
        (getProject w'.store P).stash.length + 1 = (getProject w.store P).stash.length) := by
  constructor
  · intro h
    exact ⟨_, deleteStash_invalid e index w P hP h, rfl, rfl, rfl, rfl⟩
  · intro h0 h1 hok
    obtain ⟨entry, _, hrun⟩ := deleteStash_valid e index w P hP h0 h1
    have hlt : index.toNat < (getProject w.store P).stash.length := by omega
    have hkey : getProjectKey ({ getProject w.store P with
        stash := (getProject w.store P).stash.eraseIdx index.toNat } : Project).name
        = getProjectKey P := getProject_key w.store P
    have hget := getProject_saveProject w.store _ P hkey
    refine ⟨_, hrun, rfl, rfl, ?_, ?_, ?_⟩
    · simp only [World.notify, World.save, hok]
      exact hget
    · simp only [World.notify, World.save, hok]
      rw [hget]
      exact List.eraseIdx_eq_take_drop_succ _ _
    · simp only [World.notify, World.save, hok]
      rw [hget]
      simp only [List.length_eraseIdx, hlt, if_true]
      omega

/-- Worked instance of C8 on a stash of three entries: index 7 and index 1. -/
theorem deleteStash_spec_witness :
    truthyName (getCurrentProject stashedWorld.store) = some "Demo" ∧
    (∃ w', deleteStash (envAt 1) 7 stashedWorld = some w' ∧
        w'.notes = stashedWorld.notes ++ [Note.error "Invalid stash index"] ∧
        w'.sent = stashedWorld.sent ∧ w'.doc = stashedWorld.doc ∧
        w'.store = stashedWorld.store) ∧
    (∃ w', deleteStash (envAt 1) 1 stashedWorld = some w' ∧
        w'.sent = stashedWorld.sent ∧ w'.doc = stashedWorld.doc ∧
        getProject w'.store "Demo" =
          { getProject stashedWorld.store "Demo" with
            stash := (getProject stashedWorld.store "Demo").stash.eraseIdx (1 : Int).toNat } ∧
        (getProject w'.store "Demo").stash
          = (getProject stashedWorld.store "Demo").stash.take (1 : Int).toNat
              ++ (getProject stashedWorld.store "Demo").stash.drop ((1 : Int).toNat + 1) ∧
        (getProject w'.store "Demo").stash.length + 1
          = (getProject stashedWorld.store "Demo").stash.length) :=
  ⟨by decide,
   (deleteStash_spec (envAt 1) 7 stashedWorld "Demo" (by decide)).1 (by decide),
   (deleteStash_spec (envAt 1) 1 stashedWorld "Demo" (by decide)).2
      (by decide) (by decide) (by decide)⟩

/-! ## C9: no project selected -/

/-- C9: when no current project is set (the stored name is null, or empty, so
    that `!projectName` holds), every engine operation, whatever its argument,
    returns after emitting the "No project selected" error, with the store, the
    messages sent and the live document unchanged. -/
theorem no_project_selected (H : Host) (e : Env) (op : Op) (w : World)
    (hnone : truthyName (getCurrentProject w.store) = none) :
    ∃ w', op.run H e w = some w' ∧
      w'.notes = w.notes ++ [Note.error "No project selected"] ∧
      w'.store = w.store ∧ w'.sent = w.sent ∧ w'.doc = w.doc := by
  refine ⟨w.notify (Note.error "No project selected"), ?_, rfl, rfl, rfl, rfl⟩
  cases op <;>
    simp only [Op.run, commit, checkout, createBranch, switchBranch, stashSave, stashPop,
      deleteStash, hnone]

/-- Worked instance of C9: `checkout` on a store without current project. -/
theorem no_project_selected_witness :
    truthyName (getCurrentProject noProjectWorld.store) = none ∧
    ∃ w', (Op.checkout "c1").run plainHost (envAt 1) noProjectWorld = some w' ∧
      w'.notes = noProjectWorld.notes ++ [Note.error "No project selected"] ∧
      w'.store = noProjectWorld.store ∧ w'.sent = noProjectWorld.sent ∧
      w'.doc = noProjectWorld.doc :=
  ⟨by decide,
   no_project_selected plainHost (envAt 1) (Op.checkout "c1") noProjectWorld (by decide)⟩

/-! ## C10: the branch-head invariant -/

theorem getProject_save (ok : Bool) (s : Storage) (q : Project) (P : String)
    (h : getProjectKey q.name = getProjectKey P) :
    getProject (saveProject ok s q) P = if ok then q else getProject s P := by
  cases ok
  · simp [saveProject]
  · simpa using getProject_saveProject s q P h

theorem projStep_save {p q : Project} (ok : Bool) (h : ProjStep p q) :
    ProjStep p (if ok then q else p) := by
  cases ok
  · exact ProjStep.same
  · simpa using h

theorem projStep_saved (ok : Bool) (s : Storage) (P : String) (q : Project)
    (hq : getProjectKey q.name = getProjectKey P) (h : ProjStep (getProject s P) q) :
    ProjStep (getProject s P) (getProject (saveProject ok s q) P) := by
  rw [getProject_save _ _ _ _ hq]
  exact projStep_save _ h

theorem afterHeadApply_store (H : Host) (w : World) (b : Branch) :
    (afterHeadApply H w b).store = w.store := by
  unfold afterHeadApply
  split
  · split <;> rfl
  · rfl

/-- One call changes the record of the current project in one of the ways of
    `ProjStep`, and leaves the current-project pointer alone. -/
theorem step_projStep (H : Host) (w : World) (call : Env × Op) (P : String)
    (hP : truthyName (getCurrentProject w.store) = some P) :
    truthyName (getCurrentProject (step H w call).store) = some P ∧
    ProjStep (getProject w.store P) (getProject (step H w call).store P) := by
  obtain ⟨e, op⟩ := call
  have hkey := getProject_key w.store P
  cases op with
  | commit m =>
    cases hb : getBranch (getProject w.store P).branches (getProject w.store P).currentBranch with
    | own b =>
      have hrun := commit_own e m w P b hP hb
      simp only [step, Op.run, hrun, Option.getD_some, World.notify, World.save]
      refine ⟨by simpa [getCurrentProject, saveProject_currentProject] using hP, ?_⟩
      exact projStep_saved _ _ _ _ hkey
        (ProjStep.commit b _ ((getBranch_own_iff _ _ _).1 hb) rfl)
    | inherited =>
      have hrun : commit e m w = none := by simp only [commit, hP, hb]
      simp only [step, Op.run, hrun, Option.getD_none]
      exact ⟨hP, ProjStep.same⟩
    | undefined =>
      have hrun : commit e m w = none := by simp only [commit, hP, hb]
      simp only [step, Op.run, hrun, Option.getD_none]
      exact ⟨hP, ProjStep.same⟩
  | checkout cid =>
    cases hb : getBranch (getProject w.store P).branches (getProject w.store P).currentBranch with
    | own b =>
      cases hf : b.commits.find? (fun x => x.id = cid) with
      | none =>
        have hrun := checkout_not_found H e cid w P b hP hb hf
        simp only [step, Op.run, hrun, Option.getD_some, World.notify]
        exact ⟨hP, ProjStep.same⟩
      | some c =>
        have hrun := checkout_found H e cid w P b c hP hb hf
        simp only [step, Op.run, hrun, Option.getD_some, World.notify, World.save, World.apply]
        refine ⟨by simpa [getCurrentProject, saveProject_currentProject] using hP, ?_⟩
        exact projStep_saved _ _ _ _ hkey
          (ProjStep.checkout b c ((getBranch_own_iff _ _ _).1 hb)
          (List.mem_of_find?_eq_some hf))
    | inherited =>
      have hrun : checkout H e cid w = none := by simp only [checkout, hP, hb]
      simp only [step, Op.run, hrun, Option.getD_none]
      exact ⟨hP, ProjStep.same⟩
    | undefined =>
      have hrun : checkout H e cid w = none := by simp only [checkout, hP, hb]
      simp only [step, Op.run, hrun, Option.getD_none]
      exact ⟨hP, ProjStep.same⟩
  | createBranch name =>
    cases ht : (getBranch (getProject w.store P).branches name).truthy with
    | true =>
      have hrun := createBranch_exists e name w P hP ht
      simp only [step, Op.run, hrun, Option.getD_some, World.notify]
      exact ⟨hP, ProjStep.same⟩
    | false =>
      have hnk : name ∉ objectPrototypeKeys := by
        intro hin
        rw [getBranch_truthy_of_inherited _ _ hin] at ht
        cases ht
      have hno : ownBranch (getProject w.store P).branches name = none := by
        cases ho : ownBranch (getProject w.store P).branches name with
        | none => rfl
        | some old =>
          rw [(getBranch_truthy_iff _ _ hnk).2 ⟨old, ho⟩] at ht
          cases ht
      cases hb : getBranch (getProject w.store P).branches
          (getProject w.store P).currentBranch with
      | own b =>
        have hrun := createBranch_new e name w P b hP hb ht
        simp only [step, Op.run, hrun, Option.getD_some, World.notify, World.save]
        refine ⟨by simpa [getCurrentProject, saveProject_currentProject] using hP, ?_⟩
        exact projStep_saved _ _ _ _ hkey
          (ProjStep.createBranch b name ((getBranch_own_iff _ _ _).1 hb) hno hnk)
      | inherited =>
        have hrun : createBranch e name w = none := by simp [createBranch, hP, hb, ht]
        simp only [step, Op.run, hrun, Option.getD_none]
        exact ⟨hP, ProjStep.same⟩
      | undefined =>
        have hrun : createBranch e name w = none := by simp [createBranch, hP, hb, ht]
        simp only [step, Op.run, hrun, Option.getD_none]
        exact ⟨hP, ProjStep.same⟩
  | switchBranch name =>
    cases hb : getBranch (getProject w.store P).branches name with
    | own b =>
      have hrun := switchBranch_own H e name w P b hP hb
      simp only [step, Op.run, hrun, Option.getD_some, World.notify, World.save,
        afterHeadApply_store]
      refine ⟨by simpa [getCurrentProject, saveProject_currentProject] using hP, ?_⟩
      exact projStep_saved _ _ _ _ hkey
        (ProjStep.switchBranch name (by rw [hb]; rfl))
    | inherited =>
      have hrun := switchBranch_inherited H e name w P hP hb
      simp only [step, Op.run, hrun, Option.getD_some, World.notify, World.save]
      refine ⟨by simpa [getCurrentProject, saveProject_currentProject] using hP, ?_⟩
      exact projStep_saved _ _ _ _ hkey
        (ProjStep.switchBranch name (by rw [hb]; rfl))
    | undefined =>
      have hrun := switchBranch_absent H e name w P hP (by rw [hb]; rfl)
      simp only [step, Op.run, hrun, Option.getD_some, World.notify]
      exact ⟨hP, ProjStep.same⟩
  | stashSave m =>
    have hrun := stashSave_selected e m w P hP
    simp only [step, Op.run, hrun, Option.getD_some, World.notify, World.save]
    refine ⟨by simpa [getCurrentProject, saveProject_currentProject] using hP, ?_⟩
    exact projStep_saved _ _ _ _ hkey
      (ProjStep.stashSave _)
  | stashPop =>
    cases hs : (getProject w.store P).stash with
    | nil =>
      have hrun := stashPop_empty H e w P hP hs
      simp only [step, Op.run, hrun, Option.getD_some, World.notify]
      exact ⟨hP, ProjStep.same⟩
    | cons entry rest =>
      have hrun := stashPop_front H e w P entry rest hP hs
      simp only [step, Op.run, hrun, Option.getD_some, World.notify, World.save, World.apply]
      refine ⟨by simpa [getCurrentProject, saveProject_currentProject] using hP, ?_⟩
      exact projStep_saved _ _ _ _ hkey
        (ProjStep.stashPop entry rest hs)
  | deleteStash i =>
    by_cases h : i < 0 ∨ i ≥ ((getProject w.store P).stash.length : Int)
    · have hrun := deleteStash_invalid e i w P hP h
      simp only [step, Op.run, hrun, Option.getD_some, World.notify]
      exact ⟨hP, ProjStep.same⟩
    · obtain ⟨entry, _, hrun⟩ := deleteStash_valid e i w P hP (by omega) (by omega)
      simp only [step, Op.run, hrun, Option.getD_some, World.notify, World.save]
      refine ⟨by simpa [getCurrentProject, saveProject_currentProject] using hP, ?_⟩
      exact projStep_saved _ _ _ _ hkey
        (ProjStep.deleteStash i.toNat (by omega))

theorem mem_of_ownBranch {bs : List (String × Branch)} {n : String} {b : Branch}
    (h : ownBranch bs n = some b) : (n, b) ∈ bs := by
  induction bs with
  | nil => simp [ownBranch] at h
  | cons x xs ih =>
    obtain ⟨k, old⟩ := x
    unfold ownBranch at h
    split at h
    · rename_i hk
      cases h
      rw [hk]
      exact List.mem_cons_self _ _
    · exact List.mem_cons_of_mem _ (ih h)

theorem headsOk_withBranch {p : Project} {n : String} {b : Branch}
    (hp : p.headsOk) (hb : b.headOk) : (p.withBranch n b).headsOk := by
  intro kb hkb
  rcases mem_setBranch hkb with h | h
  · exact hp kb h
  · rw [h]; exact hb

theorem projStep_headsOk {p q : Project} (h : ProjStep p q) (hp : p.headsOk) : q.headsOk := by
  cases h with
  | same => exact hp
  | commit b c hb _ =>
    apply headsOk_withBranch hp
    right
    exact ⟨c, by simp [Branch.pushCommit], rfl⟩
  | checkout b c hb hc =>
    apply headsOk_withBranch hp
    right
    exact ⟨c, hc, rfl⟩
  | createBranch b name hb _ _ =>
    apply headsOk_withBranch hp
    exact hp _ (mem_of_ownBranch hb)
  | switchBranch name _ => exact hp
  | stashSave entry => exact hp
  | stashPop entry rest _ => exact hp
  | deleteStash i _ => exact hp

theorem runOps_headsOk (H : Host) (calls : List (Env × Op)) :
    ∀ (w : World) (P : String), truthyName (getCurrentProject w.store) = some P →
      (getProject w.store P).headsOk → (getProject (runOps H w calls).store P).headsOk := by
  induction calls with
  | nil => intro w P _ h; exact h
  | cons call rest ih =>
    intro w P hP h
    obtain ⟨hP2, hstep⟩ := step_projStep H w call P hP
    exact ih (step H w call) P hP2 (projStep_headsOk hstep h)

/-- C10: starting from a never-saved current project (so that `getProject`
    returns the default project), after every sequence of engine calls, with
    arbitrary arguments and whether or not the store accepts the writes, every
    branch of the persisted project has a head that is null or the id of a commit
    of that same branch's log. -/
theorem head_invariant (H : Host) (w : World) (P : String) (calls : List (Env × Op))
    (hP : truthyName (getCurrentProject w.store) = some P)
    (hfresh : getRec w.store.records (getProjectKey P) = none) :
    getProject w.store P = defaultProject P ∧
    ∀ kb ∈ (getProject (runOps H w calls).store P).branches,
      kb.2.head = none ∨ ∃ c ∈ kb.2.commits, kb.2.head = some c.id := by
  have hdef : getProject w.store P = defaultProject P := by
    simp [getProject, hfresh]
  refine ⟨hdef, runOps_headsOk H calls w P hP ?_⟩
  rw [hdef]
  intro kb hkb
  simp [defaultProject] at hkb
  left
  rw [hkb]

/-- Worked instance of C10: a run over the fresh project "Demo" that commits,
    forks, switches and checks out. -/
theorem head_invariant_witness :
    truthyName (getCurrentProject demoWorld.store) = some "Demo" ∧
    getRec demoWorld.store.records (getProjectKey "Demo") = none ∧
    getProject demoWorld.store "Demo" = defaultProject "Demo" ∧
    ∀ kb ∈ (getProject (runOps plainHost demoWorld
        [(envAt 1, Op.commit "init"), (envAt 2, Op.createBranch "feature"),
         (envAt 3, Op.switchBranch "feature"), (envAt 4, Op.commit "work"),
         (envAt 5, Op.checkout (newId (envAt 1)))]).store "Demo").branches,
      kb.2.head = none ∨ ∃ c ∈ kb.2.commits, kb.2.head = some c.id :=
  ⟨by decide, by decide,
   head_invariant plainHost demoWorld "Demo"
    [(envAt 1, Op.commit "init"), (envAt 2, Op.createBranch "feature"),
     (envAt 3, Op.switchBranch "feature"), (envAt 4, Op.commit "work"),
     (envAt 5, Op.checkout (newId (envAt 1)))] (by decide) (by decide)⟩

/-! ## Forking: what holds for ordinary branch names -/

theorem commit_other_branches (e : Env) (m : String) (w : World) (P : String) (b : Branch)
    (hP : truthyName (getCurrentProject w.store) = some P)
    (hb : getBranch (getProject w.store P).branches (getProject w.store P).currentBranch
      = PropLookup.own b) :
    ∃ w', commit e m w = some w' ∧
      truthyName (getCurrentProject w'.store) = some P ∧
      (getProject w'.store P).currentBranch = (getProject w.store P).currentBranch ∧
      (∃ b', getBranch (getProject w'.store P).branches (getProject w'.store P).currentBranch
        = PropLookup.own b') ∧
      ∀ n, n ≠ (getProject w.store P).currentBranch →
        ownBranch (getProject w'.store P).branches n
          = ownBranch (getProject w.store P).branches n := by
  refine ⟨_, commit_own e m w P b hP hb, ?_, ?_⟩
  · simpa [World.notify, World.save, getCurrentProject, saveProject_currentProject] using hP
  · simp only [World.notify, World.save]
    rw [getProject_save _ _ _ _ (by exact getProject_key w.store P)]
    cases e.setOk with
    | false => exact ⟨rfl, ⟨b, hb⟩, fun _ _ => rfl⟩
    | true =>
      refine ⟨rfl, ⟨_, getBranch_setBranch_self _ _ _⟩, ?_⟩
      intro n hn
      exact ownBranch_setBranch_other _ _ _ _ hn

/-- A run of commits leaves every branch other than the current one as it was. -/
theorem commitAll_other_branches (calls : List (Env × String)) :
    ∀ (w : World) (P : String) (b : Branch),
      truthyName (getCurrentProject w.store) = some P →
      getBranch (getProject w.store P).branches (getProject w.store P).currentBranch
        = PropLookup.own b →
      ∃ w', commitAll w calls = some w' ∧
        (getProject w'.store P).currentBranch = (getProject w.store P).currentBranch ∧
        ∀ n, n ≠ (getProject w.store P).currentBranch →
          ownBranch (getProject w'.store P).branches n
            = ownBranch (getProject w.store P).branches n := by
  induction calls with
  | nil => intro w P b _ _; exact ⟨w, rfl, rfl, fun _ _ => rfl⟩
  | cons call rest ih =>
    obtain ⟨e, m⟩ := call
    intro w P b hP hb
    obtain ⟨w1, h1, hP1, hcur1, ⟨b1, hb1⟩, hfr1⟩ := commit_other_branches e m w P b hP hb
    obtain ⟨w2, h2, hcur2, hfr2⟩ := ih w1 P b1 hP1 hb1
    refine ⟨w2, ?_, hcur2.trans hcur1, ?_⟩
    · simp only [commitAll, h1, Option.bind_some]
      exact h2
    · intro n hn
      rw [hfr2 n (by rw [hcur1]; exact hn), hfr1 n hn]

/-- The part of C5 the code satisfies: for a new branch name that is not a
    member of `Object.prototype` (the store accepting the writes),
    `createBranch(name)` then `switchBranch(name)` makes `name` current with the
    log and head the source branch had at fork time, and any run of commits made
    while the source branch is current leaves the forked branch as created. -/
theorem fork_plain_name_independent (H : Host) (e1 e2 : Env) (name : String) (w : World)
    (P : String) (b : Branch)
    (hP : truthyName (getCurrentProject w.store) = some P)
    (hb : getBranch (getProject w.store P).branches (getProject w.store P).currentBranch
      = PropLookup.own b)
    (hname : name ∉ objectPrototypeKeys)
    (hnew : ownBranch (getProject w.store P).branches name = none)
    (hok1 : e1.setOk = true) (hok2 : e2.setOk = true) :
    ∃ w1 w2, createBranch e1 name w = some w1 ∧ switchBranch H e2 name w1 = some w2 ∧
      (getProject w2.store P).currentBranch = name ∧
      getBranch (getProject w2.store P).branches (getProject w2.store P).currentBranch
        = PropLookup.own { name := name, commits := b.commits, head := b.head } ∧
      ∀ calls : List (Env × String), ∃ w3, commitAll w1 calls = some w3 ∧
        ownBranch (getProject w3.store P).branches name
          = some { name := name, commits := b.commits, head := b.head } := by
  obtain ⟨w1, h1, _, _, _, hp1, hfork0, hoth, _⟩ :=
    (createBranch_spec_plain_name e1 name w P b hP hb hname).2 hnew hok1
  have hown := (getBranch_own_iff _ _ _).1 hb
  have hne : name ≠ (getProject w.store P).currentBranch := by
    intro heq
    rw [heq, hown] at hnew
    cases hnew
  have hP1 : truthyName (getCurrentProject w1.store) = some P := by
    have := (step_projStep H w (e1, Op.createBranch name) P hP).1
    simpa [step, Op.run, h1] using this
  have hfork : ownBranch (getProject w1.store P).branches name
      = some { name := name, commits := b.commits, head := b.head } := hfork0
  have hcur1 : (getProject w1.store P).currentBranch = (getProject w.store P).currentBranch := by
    rw [hp1]; rfl
  have hb1 : getBranch (getProject w1.store P).branches (getProject w1.store P).currentBranch
      = PropLookup.own b := by
    rw [hcur1, getBranch_own_iff, hoth _ (fun h => hne h.symm)]
    exact hown
  obtain ⟨w2, h2, hp2, _, _⟩ :=
    (switchBranch_spec_plain_name H e2 name w1 P hP1 hname).2 _ hfork hok2
  refine ⟨w1, w2, h1, h2, by rw [hp2], ?_, ?_⟩
  · rw [hp2]
    exact (getBranch_own_iff _ _ _).2 hfork
  · intro calls
    obtain ⟨w3, h3, _, hfr⟩ := commitAll_other_branches calls w1 P b hP1 hb1
    exact ⟨w3, h3, by rw [hfr name (by rw [hcur1]; exact hne), hfork]⟩

/-- Sample values of the JavaScript helpers. -/
theorem js_helper_samples :
    toString36 0 = "0" ∧ toString36 35 = "z" ∧ toString36 36 = "10" ∧
    toString36 1295 = "zz" ∧ toString36 46656 = "1000" ∧
    encodeOptions "\x7b\"trackedItemId\":null,\"a\":1\x7d"
      = "\x7b\"trackedItemId\":undefined,\"a\":1\x7d" ∧
    encodeOptions "\x7b\"a\":1\x7d" = "\x7b\"a\":1\x7d" ∧
    splice1 [1, 2, 3] 1 = [1, 3] ∧ splice1 [1, 2, 3] (-1) = [1, 2] ∧
    splice1 [1, 2, 3] 5 = [1, 2, 3] := by
  decide

/-! ## C11 and C12: the current branch and the append-only logs -/

theorem ownBranch_isSome_iff_mem_keys (bs : List (String × Branch)) (n : String) :
    (∃ b, ownBranch bs n = some b) ↔ n ∈ bs.map Prod.fst := by
  induction bs with
  | nil => simp [ownBranch]
  | cons x xs ih =>
    obtain ⟨k, v⟩ := x
    unfold ownBranch
    by_cases hk : k = n
    · simp [hk]
    · have hne : ¬ n = k := fun h => hk h.symm
      simp [hk, hne, ih]

/-- What one call can do to a branch that exists: it stays, under the same key,
    with its log extended at the end (or left as it is). -/
theorem projStep_prefix {p q : Project} (h : ProjStep p q) (n : String) (b : Branch)
    (hb : ownBranch p.branches n = some b) :
    ∃ b' added, ownBranch q.branches n = some b' ∧ b'.commits = b.commits ++ added := by
  cases h with
  | same => exact ⟨b, [], hb, by simp⟩
  | commit b0 c h0 _ =>
    by_cases hn : n = p.currentBranch
    · rw [hn] at hb
      rw [h0] at hb
      cases hb
      refine ⟨b.pushCommit c, [c], ?_, rfl⟩
      rw [hn]
      exact ownBranch_setBranch_self _ _ _
    · refine ⟨b, [], ?_, by simp⟩
      simp only [Project.withBranch]
      rw [ownBranch_setBranch_other _ _ _ _ hn]
      exact hb
  | checkout b0 c h0 _ =>
    by_cases hn : n = p.currentBranch
    · rw [hn] at hb
      rw [h0] at hb
      cases hb
      refine ⟨{ b with head := some c.id }, [], ?_, by simp⟩
      rw [hn]
      exact ownBranch_setBranch_self _ _ _
    · refine ⟨b, [], ?_, by simp⟩
      simp only [Project.withBranch]
      rw [ownBranch_setBranch_other _ _ _ _ hn]
      exact hb
  | createBranch b0 name h0 hnone _ =>
    have hn : n ≠ name := by
      intro heq
      rw [heq, hnone] at hb
      cases hb
    refine ⟨b, [], ?_, by simp⟩
    simp only [Project.withBranch]
    rw [ownBranch_setBranch_other _ _ _ _ hn]
    exact hb
  | switchBranch name _ => exact ⟨b, [], hb, by simp⟩
  | stashSave entry => exact ⟨b, [], hb, by simp⟩
  | stashPop entry rest _ => exact ⟨b, [], hb, by simp⟩
  | deleteStash i _ => exact ⟨b, [], hb, by simp⟩

/-- C12: with a project selected, for every engine call (whatever its
    arguments, whether or not the store accepts the write, an uncaught exception
    included) and every branch that exists before the call, the branch still
    exists afterwards and its log is the earlier log followed by the commits
    added, so every earlier commit is kept unchanged at its position. -/
theorem append_only_history (H : Host) (w : World) (call : Env × Op) (P : String)
    (n : String) (b : Branch)
    (hP : truthyName (getCurrentProject w.store) = some P)
    (hb : ownBranch (getProject w.store P).branches n = some b) :
    ∃ b' added, ownBranch (getProject (step H w call).store P).branches n = some b' ∧
      b'.commits = b.commits ++ added ∧
      b.commits <+: b'.commits ∧
      ∀ (i : Nat) (c : Commit), b.commits[i]? = some c → b'.commits[i]? = some c := by
  obtain ⟨b', added, h1, h2⟩ := projStep_prefix (step_projStep H w call P hP).2 n b hb
  refine ⟨b', added, h1, h2, ⟨added, h2.symm⟩, ?_⟩
  intro i c hc
  rw [h2]
  have hi : i < b.commits.length := by
    by_contra hge
    rw [List.getElem?_eq_none (by omega)] at hc
    cases hc
  rw [List.getElem?_append_left hi]
  exact hc

/-- Worked instance of C12: a second commit on the wired project. -/
theorem append_only_history_witness :
    truthyName (getCurrentProject wiredWorld.store) = some "Demo" ∧
    ownBranch (getProject wiredWorld.store "Demo").branches "main"
      = some { name := "main", commits := [wiredCommit], head := some "c1" } ∧
    ∃ b' added,
      ownBranch (getProject (step plainHost wiredWorld (envAt 7, Op.commit "next")).store
        "Demo").branches "main" = some b' ∧
      b'.commits = [wiredCommit] ++ added ∧
      [wiredCommit] <+: b'.commits ∧
      ∀ (i : Nat) (c : Commit), [wiredCommit][i]? = some c → b'.commits[i]? = some c :=
  ⟨by decide, by decide,
   append_only_history plainHost wiredWorld (envAt 7, Op.commit "next") "Demo" "main"
    { name := "main", commits := [wiredCommit], head := some "c1" } (by decide) (by decide)⟩

theorem runOps_cons (H : Host) (w : World) (call : Env × Op) (calls : List (Env × Op)) :
    runOps H w (call :: calls) = runOps H (step H w call) calls := rfl

/-- A branch that exists keeps existing through every run of calls. -/
theorem runOps_branch_stays (H : Host) (calls : List (Env × Op)) :
    ∀ (w : World) (P n : String), truthyName (getCurrentProject w.store) = some P →
      (∃ b, ownBranch (getProject w.store P).branches n = some b) →
      ∃ b, ownBranch (getProject (runOps H w calls).store P).branches n = some b := by
  induction calls with
  | nil => intro w P n _ h; exact h
  | cons call rest ih =>
    intro w P n hP h
    obtain ⟨b, hb⟩ := h
    obtain ⟨hP2, hstep⟩ := step_projStep H w call P hP
    obtain ⟨b', _, hb', _⟩ := projStep_prefix hstep n b hb
    rw [runOps_cons]
    exact ih _ P n hP2 ⟨b', hb'⟩

/-- The part of C11 that holds for all arguments: from the default project, a
    branch named "main" exists after every run of calls. -/
theorem main_branch_stays (H : Host) (w : World) (P : String) (calls : List (Env × Op))
    (hP : truthyName (getCurrentProject w.store) = some P)
    (hfresh : getRec w.store.records (getProjectKey P) = none) :
    "main" ∈ (getProject (runOps H w calls).store P).branches.map Prod.fst := by
  rw [← ownBranch_isSome_iff_mem_keys]
  apply runOps_branch_stays H calls w P "main" hP
  simp [getProject, hfresh, defaultProject, ownBranch]

theorem projStep_keys {p q : Project} (h : ProjStep p q) (n : String)
    (hn : n ∈ p.branches.map Prod.fst) : n ∈ q.branches.map Prod.fst := by
  rw [← ownBranch_isSome_iff_mem_keys] at hn ⊢
  obtain ⟨b, hb⟩ := hn
  obtain ⟨b', _, hb', _⟩ := projStep_prefix h n b hb
  exact ⟨b', hb'⟩

/-- The current branch after one call: unchanged, or the argument of an
    accepted `switchBranch`. -/
theorem step_currentBranch (H : Host) (w : World) (e : Env) (op : Op) (P : String)
    (hP : truthyName (getCurrentProject w.store) = some P) :
    (getProject (step H w (e, op)).store P).currentBranch
        = (getProject w.store P).currentBranch ∨
    ∃ name, op = Op.switchBranch name ∧
      (getBranch (getProject w.store P).branches name).truthy = true ∧
      (getProject (step H w (e, op)).store P).currentBranch = name := by
  have hkey := getProject_key w.store P
  cases op with
  | switchBranch name =>
    cases hb : getBranch (getProject w.store P).branches name with
    | own b =>
      have hrun := switchBranch_own H e name w P b hP hb
      simp only [step, Op.run, hrun, Option.getD_some, World.notify, World.save,
        afterHeadApply_store]
      rw [getProject_save _ _ _ _ (by exact hkey)]
      cases e.setOk with
      | false => left; rfl
      | true => right; exact ⟨name, rfl, by rw [hb]; rfl, rfl⟩
    | inherited =>
      have hrun := switchBranch_inherited H e name w P hP hb
      simp only [step, Op.run, hrun, Option.getD_some, World.notify, World.save]
      rw [getProject_save _ _ _ _ (by exact hkey)]
      cases e.setOk with
      | false => left; rfl
      | true => right; exact ⟨name, rfl, by rw [hb]; rfl, rfl⟩
    | undefined =>
      have hrun := switchBranch_absent H e name w P hP (by rw [hb]; rfl)
      simp only [step, Op.run, hrun, Option.getD_some, World.notify]
      left; trivial
  | commit m =>
    left
    cases hb : getBranch (getProject w.store P).branches (getProject w.store P).currentBranch with
    | own b =>
      have hrun := commit_own e m w P b hP hb
      simp only [step, Op.run, hrun, Option.getD_some, World.notify, World.save]
      rw [getProject_save _ _ _ _ (by exact hkey)]
      cases e.setOk <;> rfl
    | inherited =>
      have hrun : commit e m w = none := by simp only [commit, hP, hb]
      simp only [step, Op.run, hrun, Option.getD_none]
    | undefined =>
      have hrun : commit e m w = none := by simp only [commit, hP, hb]
      simp only [step, Op.run, hrun, Option.getD_none]
  | checkout cid =>
    left
    cases hb : getBranch (getProject w.store P).branches (getProject w.store P).currentBranch with
    | own b =>
      cases hf : b.commits.find? (fun x => x.id = cid) with
      | none =>
        have hrun := checkout_not_found H e cid w P b hP hb hf
        simp only [step, Op.run, hrun, Option.getD_some, World.notify]
      | some c =>
        have hrun := checkout_found H e cid w P b c hP hb hf
        simp only [step, Op.run, hrun, Option.getD_some, World.notify, World.save, World.apply]
        rw [getProject_save _ _ _ _ (by exact hkey)]
        cases e.setOk <;> rfl
    | inherited =>
      have hrun : checkout H e cid w = none := by simp only [checkout, hP, hb]
      simp only [step, Op.run, hrun, Option.getD_none]
    | undefined =>
      have hrun : checkout H e cid w = none := by simp only [checkout, hP, hb]
      simp only [step, Op.run, hrun, Option.getD_none]
  | createBranch name =>
    left
    cases ht : (getBranch (getProject w.store P).branches name).truthy with
    | true =>
      have hrun := createBranch_exists e name w P hP ht
      simp only [step, Op.run, hrun, Option.getD_some, World.notify]
    | false =>
      cases hb : getBranch (getProject w.store P).branches
          (getProject w.store P).currentBranch with
      | own b =>
        have hrun := createBranch_new e name w P b hP hb ht
        simp only [step, Op.run, hrun, Option.getD_some, World.notify, World.save]
        rw [getProject_save _ _ _ _ (by exact hkey)]
        cases e.setOk <;> rfl
      | inherited =>
        have hrun : createBranch e name w = none := by simp [createBranch, hP, hb, ht]
        simp only [step, Op.run, hrun, Option.getD_none]
      | undefined =>
        have hrun : createBranch e name w = none := by simp [createBranch, hP, hb, ht]
        simp only [step, Op.run, hrun, Option.getD_none]
  | stashSave m =>
    left
    have hrun := stashSave_selected e m w P hP
    simp only [step, Op.run, hrun, Option.getD_some, World.notify, World.save]
    rw [getProject_save _ _ _ _ (by exact hkey)]
    cases e.setOk <;> rfl
  | stashPop =>
    left
    cases hs : (getProject w.store P).stash with
    | nil =>
      have hrun := stashPop_empty H e w P hP hs
      simp only [step, Op.run, hrun, Option.getD_some, World.notify]
    | cons entry rest =>
      have hrun := stashPop_front H e w P entry rest hP hs
      simp only [step, Op.run, hrun, Option.getD_some, World.notify, World.save, World.apply]
      rw [getProject_save _ _ _ _ (by exact hkey)]
      cases e.setOk <;> rfl
  | deleteStash i =>
    left
    by_cases h : i < 0 ∨ i ≥ ((getProject w.store P).stash.length : Int)
    · have hrun := deleteStash_invalid e i w P hP h
      simp only [step, Op.run, hrun, Option.getD_some, World.notify]
    · obtain ⟨entry, _, hrun⟩ := deleteStash_valid e i w P hP (by omega) (by omega)
      simp only [step, Op.run, hrun, Option.getD_some, World.notify, World.save]
      rw [getProject_save _ _ _ _ (by exact hkey)]
      cases e.setOk <;> rfl

/-- The part of C11 the code satisfies: from the default project, as long as
    `switchBranch` is never called with a name inherited from `Object.prototype`,
    `currentBranch` is a key of `branches` after every run of calls. -/
theorem currentBranch_is_key_plain_names (H : Host) (calls : List (Env × Op)) :
    ∀ (w : World) (P : String), truthyName (getCurrentProject w.store) = some P →
      (getProject w.store P).currentBranch ∈ (getProject w.store P).branches.map Prod.fst →
      (∀ call ∈ calls, ¬ call.2.switchesToInherited) →
      (getProject (runOps H w calls).store P).currentBranch
        ∈ (getProject (runOps H w calls).store P).branches.map Prod.fst := by
  induction calls with
  | nil => intro w P _ h _; exact h
  | cons call rest ih =>
    intro w P hP h hplain
    obtain ⟨e, op⟩ := call
    obtain ⟨hP2, hstep⟩ := step_projStep H w (e, op) P hP
    rw [runOps_cons]
    apply ih _ P hP2 _ (fun c hc => hplain c (List.mem_cons_of_mem _ hc))
    rcases step_currentBranch H w e op P hP with hsame | ⟨name, hop, htruthy, hcur⟩
    · rw [hsame]
      exact projStep_keys hstep _ h
    · rw [hcur]
      have hni : name ∉ objectPrototypeKeys := by
        have := hplain (e, op) (List.mem_cons_self _ _)
        rw [hop] at this
        exact this
      have hown := (getBranch_truthy_iff _ _ hni).1 htruthy
      exact projStep_keys hstep _ ((ownBranch_isSome_iff_mem_keys _ _).1 hown)

/-- C11 at the failing input: from the fresh project "Demo", the single call
    `switchBranch("constructor")` persists a `currentBranch` that is not a key of
    `branches`; the branch "main" is still there. -/
theorem currentBranch_constructor_not_key :
    getProject demoWorld.store "Demo" = defaultProject "Demo" ∧
    (getProject (runOps plainHost demoWorld
      [(envAt 1, Op.switchBranch "constructor")]).store "Demo").currentBranch
      = "constructor" ∧
    (getProject (runOps plainHost demoWorld
      [(envAt 1, Op.switchBranch "constructor")]).store "Demo").branches.map Prod.fst
      = ["main"] ∧
    (getProject (runOps plainHost demoWorld
      [(envAt 1, Op.switchBranch "constructor")]).store "Demo").currentBranch
      ∉ (getProject (runOps plainHost demoWorld
      [(envAt 1, Op.switchBranch "constructor")]).store "Demo").branches.map Prod.fst := by
  decide

/-! ## C13: the message sequence of `goToState` -/

theorem goToState_eq (doc : LiveDoc) (target : Snapshot) :
    goToState doc target = removalsOf doc ++ creationsOf target := by
  simp [goToState, getMap, removalsOf, creationsOf, List.map_map, Function.comp_def,
    List.append_assoc]

theorem removalsOf_isRemoval (doc : LiveDoc) : ∀ m ∈ removalsOf doc, m.isRemoval = true := by
  intro m hm
  simp only [removalsOf, List.mem_append, List.mem_map] at hm
  rcases hm with ((⟨v, _, rfl⟩ | ⟨v, _, rfl⟩) | ⟨v, _, rfl⟩) | ⟨v, _, rfl⟩ <;> rfl

theorem creationsOf_not_isRemoval (target : Snapshot) :
    ∀ m ∈ creationsOf target, m.isRemoval = false := by
  intro m hm
  simp only [creationsOf, List.mem_append, List.mem_map] at hm
  rcases hm with ((⟨v, _, rfl⟩ | ⟨v, _, rfl⟩) | ⟨v, _, rfl⟩) | ⟨v, _, rfl⟩ <;> rfl

/-- C13: for every live document and target snapshot, `goToState(target)` sends
    one removal per device, tile, wire and custom asset of the document, in that
    order, followed by one creation per custom asset, then per device, then per
    tile, then per wire of the target, each group in the snapshot's own order;
    every removal precedes every creation, and the number of messages is the item
    count of the document plus the item count of the target. -/
theorem goToState_sequence (doc : LiveDoc) (target : Snapshot) :
    goToState doc target
      = (doc.devices.map (fun v => Msg.removeDevice v.id)
          ++ doc.tiles.map (fun t => Msg.removeTerrain t.depth t.x t.y)
          ++ doc.wires.map (fun v => Msg.removeWire v.id)
          ++ doc.customAssets.map (fun a => Msg.removeCustomAsset a.id))
        ++ (target.customAssets.map (fun a => Msg.addCustomAsset a.data a.id a.rest)
          ++ target.devices.map
              (fun v => Msg.placeDevice v.deviceTypeId v.id v.options v.x v.y)
          ++ target.tiles.map (fun t => Msg.placeTerrain t)
          ++ target.wires.map (fun v =>
              Msg.placeWire v.endConnection v.endDeviceId v.startConnection v.startDeviceId)) ∧
    (∀ (i j : Nat) (a b : Msg), (goToState doc target)[i]? = some a →
      (goToState doc target)[j]? = some b → a.isRemoval = true → b.isRemoval = false →
      i < j) ∧
    (goToState doc target).length
      = (doc.devices.length + doc.tiles.length + doc.wires.length + doc.customAssets.length)
        + (target.customAssets.length + target.devices.length + target.tiles.length
            + target.wires.length) := by
  have heq := goToState_eq doc target
  refine ⟨heq, ?_, ?_⟩
  · intro i j a b ha hb hra hrb
    rw [heq] at ha hb
    have hi : i < (removalsOf doc).length := by
      by_contra hge
      rw [List.getElem?_append_right (by omega)] at ha
      have := creationsOf_not_isRemoval target a (List.getElem?_mem ha)
      rw [this] at hra
      cases hra
    have hj : (removalsOf doc).length ≤ j := by
      by_contra hlt
      rw [List.getElem?_append_left (by omega)] at hb
      have := removalsOf_isRemoval doc b (List.getElem?_mem hb)
      rw [this] at hrb
      cases hrb
    omega
  · rw [heq]
    simp [removalsOf, creationsOf]
    omega

/-! ## C15: deleting a project -/

theorem getProjectKey_injective {a b : String} (h : getProjectKey a = getProjectKey b) :
    a = b := by
  have h2 := congrArg String.data h
  simp only [getProjectKey, String.data_append, List.append_cancel_left_eq] at h2
  exact String.ext h2

theorem getRec_removeRec_self (recs : List Project) (key : String) :
    getRec (removeRec recs key) key = none := by
  induction recs with
  | nil => rfl
  | cons p ps ih =>
    by_cases hp : getProjectKey p.name = key
    · simpa [removeRec, hp] using ih
    · simp [removeRec, hp, getRec, ih]

theorem getRec_removeRec_other (recs : List Project) (key other : String)
    (hne : other ≠ key) : getRec (removeRec recs key) other = getRec recs other := by
  induction recs with
  | nil => rfl
  | cons p ps ih =>
    by_cases hp : getProjectKey p.name = key
    · have hpo : getProjectKey p.name ≠ other := by rw [hp]; exact fun h => hne h.symm
      rw [removeRec, if_pos hp, getRec, if_neg hpo]
      exact ih
    · by_cases hpo : getProjectKey p.name = other
      · rw [removeRec, if_neg hp, getRec, if_pos hpo, getRec, if_pos hpo]
      · rw [removeRec, if_neg hp, getRec, if_neg hpo, getRec, if_neg hpo]
        exact ih

/-- C15, as the code has it: when project `P` is current, whatever its saved history, the confirmed
    delete-project action (the store accepting the write of the list) removes
    `P` from the persisted project list and keeps every other name in order,
    clears the current-project pointer, leaves the record of every other project
    as it was, and `getProject(P)` afterwards returns the fresh default
    project. -/
theorem deleteProject_spec (e : Env) (w : World) (P : String)
    (hP : getCurrentProject w.store = some P) (hok : e.setOk = true) :
    getProjects (deleteProject true e w).store
      = (getProjects w.store).filter (fun Q => Q ≠ P) ∧
    P ∉ getProjects (deleteProject true e w).store ∧
    getCurrentProject (deleteProject true e w).store = none ∧
    (∀ Q, Q ≠ P → getProject (deleteProject true e w).store Q = getProject w.store Q) ∧
    getProject (deleteProject true e w).store P
      = { name := P, currentBranch := "main",
          branches := [("main", { name := "main", commits := [], head := none })],
          stash := [] } := by
  have hstore : (deleteProject true e w).store
      = { currentProject := none
          projects := some ((getProjects w.store).filter (fun Q => Q ≠ P))
          records := removeRec w.store.records (getProjectKey P) } := by
    simp [deleteProject, hP, hok, saveProjects, World.notify, nameText]
  rw [hstore]
  refine ⟨rfl, ?_, rfl, ?_, ?_⟩
  · simp [getProjects]
  · intro Q hQ
    have hk : getProjectKey Q ≠ getProjectKey P := fun h => hQ (getProjectKey_injective h)
    simp only [getProject]
    rw [getRec_removeRec_other _ _ _ hk]
  · simp only [getProject]
    rw [getRec_removeRec_self]
    rfl

/-- Worked instance of C15: deleting "Demo" next to the project "Other". -/
theorem deleteProject_spec_witness :
    getCurrentProject twoProjectWorld.store = some "Demo" ∧
    getProject twoProjectWorld.store "Demo" = wiredProject ∧
    getProjects (deleteProject true (envAt 1) twoProjectWorld).store
      = (getProjects twoProjectWorld.store).filter (fun Q => Q ≠ "Demo") ∧
    "Demo" ∉ getProjects (deleteProject true (envAt 1) twoProjectWorld).store ∧
    getCurrentProject (deleteProject true (envAt 1) twoProjectWorld).store = none ∧
    (∀ Q, Q ≠ "Demo" → getProject (deleteProject true (envAt 1) twoProjectWorld).store Q
      = getProject twoProjectWorld.store Q) ∧
    getProject (deleteProject true (envAt 1) twoProjectWorld).store "Demo"
      = { name := "Demo", currentBranch := "main",
          branches := [("main", { name := "main", commits := [], head := none })],
          stash := [] } :=
  ⟨by decide, by decide, deleteProject_spec (envAt 1) twoProjectWorld "Demo" (by decide) (by decide)⟩

/-! ## C16: a rejected store write -/

/-- A rejected write leaves the whole store as it was, for every operation. -/
theorem rejected_write_keeps_store (H : Host) (e : Env) (op : Op) (w : World)
    (hrej : e.setOk = false) : (step H w (e, op)).store = w.store := by
  have hsave : ∀ (w1 : World) (q : Project), (w1.save e q).store = w1.store := by
    intro w1 q
    simp [World.save, saveProject, hrej]
  cases hc : truthyName (getCurrentProject w.store) with
  | none =>
    obtain ⟨w', hrun, _, hst, _, _⟩ := no_project_selected H e op w hc
    simp only [step, hrun, Option.getD_some, hst]
  | some P =>
    cases op with
    | commit m =>
      cases hb : getBranch (getProject w.store P).branches
          (getProject w.store P).currentBranch with
      | own b =>
        simp only [step, Op.run, commit_own e m w P b hc hb, Option.getD_some, World.notify, hsave]
      | inherited =>
        have hrun : commit e m w = none := by simp only [commit, hc, hb]
        simp only [step, Op.run, hrun, Option.getD_none]
      | undefined =>
        have hrun : commit e m w = none := by simp only [commit, hc, hb]
        simp only [step, Op.run, hrun, Option.getD_none]
    | checkout cid =>
      cases hb : getBranch (getProject w.store P).branches
          (getProject w.store P).currentBranch with
      | own b =>
        cases hf : b.commits.find? (fun x => x.id = cid) with
        | none =>
          simp only [step, Op.run, checkout_not_found H e cid w P b hc hb hf, Option.getD_some,
            World.notify]
        | some c =>
          simp only [step, Op.run, checkout_found H e cid w P b c hc hb hf, Option.getD_some,
            World.notify, hsave, World.apply]
      | inherited =>
        have hrun : checkout H e cid w = none := by simp only [checkout, hc, hb]
        simp only [step, Op.run, hrun, Option.getD_none]
      | undefined =>
        have hrun : checkout H e cid w = none := by simp only [checkout, hc, hb]
        simp only [step, Op.run, hrun, Option.getD_none]
    | createBranch name =>
      cases ht : (getBranch (getProject w.store P).branches name).truthy with
      | true =>
        simp only [step, Op.run, createBranch_exists e name w P hc ht, Option.getD_some,
          World.notify]
      | false =>
        cases hb : getBranch (getProject w.store P).branches
            (getProject w.store P).currentBranch with
        | own b =>
          simp only [step, Op.run, createBranch_new e name w P b hc hb ht, Option.getD_some,
            World.notify, hsave]
        | inherited =>
          have hrun : createBranch e name w = none := by simp [createBranch, hc, hb, ht]
          simp only [step, Op.run, hrun, Option.getD_none]
        | undefined =>
          have hrun : createBranch e name w = none := by simp [createBranch, hc, hb, ht]
          simp only [step, Op.run, hrun, Option.getD_none]
    | switchBranch name =>
      cases hb : getBranch (getProject w.store P).branches name with
      | own b =>
        simp only [step, Op.run, switchBranch_own H e name w P b hc hb, Option.getD_some,
          World.notify, hsave, afterHeadApply_store]
      | inherited =>
        simp only [step, Op.run, switchBranch_inherited H e name w P hc hb, Option.getD_some,
          World.notify, hsave]
      | undefined =>
        simp only [step, Op.run, switchBranch_absent H e name w P hc (by rw [hb]; rfl),
          Option.getD_some, World.notify]
    | stashSave m =>
      simp only [step, Op.run, stashSave_selected e m w P hc, Option.getD_some, World.notify,
        hsave]
    | stashPop =>
      cases hs : (getProject w.store P).stash with
      | nil =>
        simp only [step, Op.run, stashPop_empty H e w P hc hs, Option.getD_some, World.notify]
      | cons entry rest =>
        simp only [step, Op.run, stashPop_front H e w P entry rest hc hs, Option.getD_some,
          World.notify, hsave, World.apply]
    | deleteStash i =>
      by_cases h : i < 0 ∨ i ≥ ((getProject w.store P).stash.length : Int)
      · simp only [step, Op.run, deleteStash_invalid e i w P hc h, Option.getD_some,
          World.notify]
      · obtain ⟨entry, _, hrun⟩ := deleteStash_valid e i w P hc (by omega) (by omega)
        simp only [step, Op.run, hrun, Option.getD_some, World.notify, hsave]

/-- C16 as stated fails: with the store rejecting the write, `commit("x")` on
    the fresh project "Demo" emits the success notification and no error, and
    `checkout("c1")` on the wired project sends its messages to the live document
    and announces success, although nothing is persisted. -/
theorem rejected_write_reports_success :
    (rejectingEnv 1).setOk = false ∧
    (∃ w', commit (rejectingEnv 1) "x" demoWorld = some w' ∧
      w'.notes = [Note.success "Committed: x"] ∧ w'.store = demoWorld.store) ∧
    (∃ w', checkout plainHost (rejectingEnv 2) "c1" wiredWorld = some w' ∧
      w'.notes = [Note.success "Checked out: wired"] ∧
      w'.store = wiredWorld.store ∧
      w'.sent = goToState wiredWorld.doc wiredCommit.state ∧
      w'.sent.length = 4 ∧
      w'.doc ≠ wiredWorld.doc) := by
  refine ⟨rfl, ⟨_, rfl, ?_, ?_⟩, ⟨_, rfl, ?_, ?_, ?_, ?_, ?_⟩⟩ <;> decide

/-- What a call sends to the live document, and the live document after the
    call, do not depend on the environment of the call (clock, random text,
    outcome of the store write). -/
theorem step_sent_doc_env (H : Host) (e1 e2 : Env) (op : Op) (w : World) :
    (step H w (e1, op)).sent = (step H w (e2, op)).sent ∧
    (step H w (e1, op)).doc = (step H w (e2, op)).doc := by
  cases hc : truthyName (getCurrentProject w.store) with
  | none =>
    obtain ⟨w1, hrun1, _, _, hs1, hd1⟩ := no_project_selected H e1 op w hc
    obtain ⟨w2, hrun2, _, _, hs2, hd2⟩ := no_project_selected H e2 op w hc
    simp only [step, hrun1, hrun2, Option.getD_some, hs1, hs2, hd1, hd2, and_self]
  | some P =>
    cases op with
    | commit m =>
      cases hb : getBranch (getProject w.store P).branches
          (getProject w.store P).currentBranch with
      | own b =>
        simp only [step, Op.run, commit_own _ m w P b hc hb, Option.getD_some]
        exact ⟨rfl, rfl⟩
      | inherited =>
        have hrun : ∀ e, commit e m w = none := by intro e; simp only [commit, hc, hb]
        simp only [step, Op.run, hrun, Option.getD_none, and_self]
      | undefined =>
        have hrun : ∀ e, commit e m w = none := by intro e; simp only [commit, hc, hb]
        simp only [step, Op.run, hrun, Option.getD_none, and_self]
    | checkout cid =>
      cases hb : getBranch (getProject w.store P).branches
          (getProject w.store P).currentBranch with
      | own b =>
        cases hf : b.commits.find? (fun x => x.id = cid) with
        | none =>
          simp only [step, Op.run, checkout_not_found H _ cid w P b hc hb hf, Option.getD_some,
            and_self]
        | some c =>
          simp only [step, Op.run, checkout_found H _ cid w P b c hc hb hf, Option.getD_some]
          exact ⟨rfl, rfl⟩
      | inherited =>
        have hrun : ∀ e, checkout H e cid w = none := by intro e; simp only [checkout, hc, hb]
        simp only [step, Op.run, hrun, Option.getD_none, and_self]
      | undefined =>
        have hrun : ∀ e, checkout H e cid w = none := by intro e; simp only [checkout, hc, hb]
        simp only [step, Op.run, hrun, Option.getD_none, and_self]
    | createBranch name =>
      cases ht : (getBranch (getProject w.store P).branches name).truthy with
      | true =>
        simp only [step, Op.run, createBranch_exists _ name w P hc ht, Option.getD_some,
          and_self]
      | false =>
        cases hb : getBranch (getProject w.store P).branches
            (getProject w.store P).currentBranch with
        | own b =>
          simp only [step, Op.run, createBranch_new _ name w P b hc hb ht, Option.getD_some]
          exact ⟨rfl, rfl⟩
        | inherited =>
          have hrun : ∀ e, createBranch e name w = none := by
            intro e; simp [createBranch, hc, hb, ht]
          simp only [step, Op.run, hrun, Option.getD_none, and_self]
        | undefined =>
          have hrun : ∀ e, createBranch e name w = none := by
            intro e; simp [createBranch, hc, hb, ht]
          simp only [step, Op.run, hrun, Option.getD_none, and_self]
    | switchBranch name =>
      cases hb : getBranch (getProject w.store P).branches name with
      | own b =>
        simp only [step, Op.run, switchBranch_own H _ name w P b hc hb, Option.getD_some]
        exact ⟨rfl, rfl⟩
      | inherited =>
        simp only [step, Op.run, switchBranch_inherited H _ name w P hc hb, Option.getD_some]
        exact ⟨rfl, rfl⟩
      | undefined =>
        simp only [step, Op.run, switchBranch_absent H _ name w P hc (by rw [hb]; rfl),
          Option.getD_some, and_self]
    | stashSave m =>
      simp only [step, Op.run, stashSave_selected _ m w P hc, Option.getD_some]
      exact ⟨rfl, rfl⟩
    | stashPop =>
      cases hs : (getProject w.store P).stash with
      | nil =>
        simp only [step, Op.run, stashPop_empty H _ w P hc hs, Option.getD_some, and_self]
      | cons entry rest =>
        simp only [step, Op.run, stashPop_front H _ w P entry rest hc hs, Option.getD_some]
        exact ⟨rfl, rfl⟩
    | deleteStash i =>
      by_cases h : i < 0 ∨ i ≥ ((getProject w.store P).stash.length : Int)
      · simp only [step, Op.run, deleteStash_invalid _ i w P hc h, Option.getD_some, and_self]
      · obtain ⟨entry1, _, hrun1⟩ := deleteStash_valid e1 i w P hc (by omega) (by omega)
        obtain ⟨entry2, _, hrun2⟩ := deleteStash_valid e2 i w P hc (by omega) (by omega)
        simp only [step, Op.run, hrun1, hrun2, Option.getD_some]
        exact ⟨rfl, rfl⟩

/-- C16, as the code has it: when the store rejects the write of a call, the
    whole persisted store (the project record included) is left unchanged,
    while everything the call sends to the live document, and the live document
    after it, are those of the same call with the write accepted; `checkout`,
    `switchBranch` and `stashPop` have sent their `goToState` messages before the
    write and they are not undone. -/
theorem rejected_write_effects (H : Host) (e : Env) (op : Op) (w : World)
    (hrej : e.setOk = false) :
    (step H w (e, op)).store = w.store ∧
    (step H w (e, op)).sent = (step H w ({ e with setOk := true }, op)).sent ∧
    (step H w (e, op)).doc = (step H w ({ e with setOk := true }, op)).doc :=
  ⟨rejected_write_keeps_store H e op w hrej,
   (step_sent_doc_env H e { e with setOk := true } op w).1,
   (step_sent_doc_env H e { e with setOk := true } op w).2⟩

/-- Worked instance of the amended C16: `checkout("c1")` on the wired project
    with the write rejected. -/
theorem rejected_write_effects_witness :
    (rejectingEnv 2).setOk = false ∧
    (step plainHost wiredWorld (rejectingEnv 2, Op.checkout "c1")).store = wiredWorld.store ∧
    (step plainHost wiredWorld (rejectingEnv 2, Op.checkout "c1")).sent
      = (step plainHost wiredWorld
          ({ rejectingEnv 2 with setOk := true }, Op.checkout "c1")).sent ∧
    (step plainHost wiredWorld (rejectingEnv 2, Op.checkout "c1")).doc
      = (step plainHost wiredWorld
          ({ rejectingEnv 2 with setOk := true }, Op.checkout "c1")).doc :=
  ⟨rfl, rejected_write_effects plainHost (rejectingEnv 2) (Op.checkout "c1") wiredWorld rfl⟩

/-! ## C14: the worked example -/

theorem toString36Aux_ne_nil (fuel n : Nat) (acc : List Char) (h : acc ≠ [] ∨ 0 < fuel) :
    toString36Aux fuel n acc ≠ [] := by
  induction fuel generalizing n acc with
  | zero =>
    rcases h with h | h
    · simpa [toString36Aux] using h
    · omega
  | succ k ih =>
    unfold toString36Aux
    split
    · simp
    · exact ih _ _ (Or.inl (by simp))

/-- A generated id is never the empty string. -/
theorem newId_ne_empty (e : Env) : newId e ≠ "" := by
  intro h
  have h2 := congrArg String.data h
  simp only [newId, toString36, String.data_append] at h2
  have h3 : toString36Aux (e.nowId + 1) e.nowId [] = [] := by
    have := List.append_eq_nil.1 h2
    exact this.1
  exact toString36Aux_ne_nil _ _ _ (Or.inr (by omega)) h3

theorem headTruthy_newId (e : Env) : headTruthy (some (newId e)) = true := by
  simp [headTruthy, newId_ne_empty]

theorem commit_step (e : Env) (m : String) (w : World) (P : String) (b : Branch)
    (hP : truthyName (getCurrentProject w.store) = some P)
    (hb : getBranch (getProject w.store P).branches (getProject w.store P).currentBranch
      = PropLookup.own b)
    (hok : e.setOk = true) :
    ∃ w', commit e m w = some w' ∧ truthyName (getCurrentProject w'.store) = some P ∧
      getProject w'.store P
        = (getProject w.store P).withBranch (getProject w.store P).currentBranch
            (b.pushCommit (commitObjOf e m b.head (getMap w.doc))) ∧
      w'.doc = w.doc ∧ w'.sent = w.sent := by
  refine ⟨_, commit_own e m w P b hP hb, ?_, ?_, rfl, rfl⟩
  · simpa [World.notify, World.save, getCurrentProject, saveProject_currentProject] using hP
  · simp only [World.notify, World.save, hok]
    exact getProject_saveProject _ _ _ (getProject_key w.store P)

theorem createBranch_step (e : Env) (name : String) (w : World) (P : String) (b : Branch)
    (hP : truthyName (getCurrentProject w.store) = some P)
    (hb : getBranch (getProject w.store P).branches (getProject w.store P).currentBranch
      = PropLookup.own b)
    (hnew : (getBranch (getProject w.store P).branches name).truthy = false)
    (hok : e.setOk = true) :
    ∃ w', createBranch e name w = some w' ∧
      truthyName (getCurrentProject w'.store) = some P ∧
      getProject w'.store P
        = (getProject w.store P).withBranch name
            { name := name, commits := b.commits, head := b.head } ∧
      w'.doc = w.doc ∧ w'.sent = w.sent := by
  refine ⟨_, createBranch_new e name w P b hP hb hnew, ?_, ?_, rfl, rfl⟩
  · simpa [World.notify, World.save, getCurrentProject, saveProject_currentProject] using hP
  · simp only [World.notify, World.save, hok]
    exact getProject_saveProject _ _ _ (getProject_key w.store P)

theorem switchBranch_step (H : Host) (e : Env) (name : String) (w : World) (P : String)
    (b : Branch) (c : Commit)
    (hP : truthyName (getCurrentProject w.store) = some P)
    (hb : getBranch (getProject w.store P).branches name = PropLookup.own b)
    (hhead : headTruthy b.head = true)
    (hfind : b.commits.find? (fun x => some x.id = b.head) = some c)
    (hok : e.setOk = true) :
    ∃ w', switchBranch H e name w = some w' ∧
      truthyName (getCurrentProject w'.store) = some P ∧
      getProject w'.store P = { getProject w.store P with currentBranch := name } ∧
      w'.doc = H.performAll w.doc (goToState w.doc c.state) ∧
      w'.sent = w.sent ++ goToState w.doc c.state := by
  have happly : afterHeadApply H w b = w.apply H c.state := by
    simp [afterHeadApply, hhead, hfind]
  refine ⟨_, switchBranch_own H e name w P b hP hb, ?_, ?_, ?_, ?_⟩
  · simpa [World.notify, World.save, getCurrentProject, saveProject_currentProject,
      afterHeadApply_store] using hP
  · simp only [World.notify, World.save, hok, afterHeadApply_store]
    exact getProject_saveProject _ _ _ (getProject_key w.store P)
  · simp [World.notify, World.save, happly, World.apply]
  · simp [World.notify, World.save, happly, World.apply]

/-- C14, as the code has it: from the fresh project "Demo" selected as current (the store accepting
    the writes, the two generated commit ids distinct), `commit("init")`,
    `createBranch("feature")`, `switchBranch("feature")`, `commit("feature work")`
    all return and leave `main` with exactly the commit "init", `feature` with
    the commits "init" and "feature work", and different heads; a following
    `switchBranch("main")` sends `goToState` of the snapshot stored in the "init"
    commit, the one captured by the first call.  In general a `commit` that
    returns leaves every branch other than the current one as it was. -/
theorem demo_scenario (H : Host) (w : World) (e1 e2 e3 e4 e5 : Env)
    (hP : truthyName (getCurrentProject w.store) = some "Demo")
    (hfresh : getRec w.store.records (getProjectKey "Demo") = none)
    (hok1 : e1.setOk = true) (hok2 : e2.setOk = true) (hok3 : e3.setOk = true)
    (hok4 : e4.setOk = true) (hids : newId e1 ≠ newId e4) :
    (∃ w1 w2 w3 w4 w5 bm bf c1,
      commit e1 "init" w = some w1 ∧ createBranch e2 "feature" w1 = some w2 ∧
      switchBranch H e3 "feature" w2 = some w3 ∧ commit e4 "feature work" w3 = some w4 ∧
      (getProject w4.store "Demo").branches.map Prod.fst = ["main", "feature"] ∧
      ownBranch (getProject w4.store "Demo").branches "main" = some bm ∧
      ownBranch (getProject w4.store "Demo").branches "feature" = some bf ∧
      bm.commits = [c1] ∧ c1.message = "init" ∧ c1.state = getMap w.doc ∧
      bf.commits.map (fun c => c.message) = ["init", "feature work"] ∧
      bf.commits.length = 2 ∧
      bm.head ≠ bf.head ∧
      switchBranch H e5 "main" w4 = some w5 ∧
      w5.sent = w4.sent ++ goToState w4.doc c1.state) ∧
    (∀ (v v' : World) (e : Env) (m P : String),
      truthyName (getCurrentProject v.store) = some P → commit e m v = some v' →
      ∀ n, n ≠ (getProject v.store P).currentBranch →
        ownBranch (getProject v'.store P).branches n
          = ownBranch (getProject v.store P).branches n) := by
  constructor
  · have hp0 : getProject w.store "Demo" = defaultProject "Demo" := by
      simp [getProject, hfresh]
    -- commit("init")
    obtain ⟨w1, hr1, hP1, hp1, hd1, hs1⟩ := commit_step e1 "init" w "Demo" mainBranch hP
      (by rw [hp0]; rfl) hok1
    rw [hp0] at hp1
    -- createBranch("feature")
    have hb1 : getBranch (getProject w1.store "Demo").branches
        (getProject w1.store "Demo").currentBranch
        = PropLookup.own (mainBranch.pushCommit (commitObjOf e1 "init" none (getMap w.doc))) := by
      rw [hp1]; rfl
    have hnew1 : (getBranch (getProject w1.store "Demo").branches "feature").truthy = false := by
      rw [hp1]; rfl
    obtain ⟨w2, hr2, hP2, hp2, hd2, hs2⟩ := createBranch_step e2 "feature" w1 "Demo" _ hP1
      hb1 hnew1 hok2
    rw [hp1] at hp2
    -- switchBranch("feature")
    have hb2 : getBranch (getProject w2.store "Demo").branches "feature"
        = PropLookup.own ((mainBranch.pushCommit
            (commitObjOf e1 "init" none (getMap w.doc))).forkAs "feature") := by
      rw [hp2]; rfl
    obtain ⟨w3, hr3, hP3, hp3, hd3, hs3⟩ := switchBranch_step H e3 "feature" w2 "Demo" _
      (commitObjOf e1 "init" none (getMap w.doc)) hP2 hb2 (headTruthy_newId e1)
      (by simp [commitObjOf, Branch.forkAs, Branch.pushCommit, mainBranch]) hok3
    rw [hp2] at hp3
    -- commit("feature work")
    have hb3 : getBranch (getProject w3.store "Demo").branches
        (getProject w3.store "Demo").currentBranch
        = PropLookup.own ((mainBranch.pushCommit
            (commitObjOf e1 "init" none (getMap w.doc))).forkAs "feature") := by
      rw [hp3]; rfl
    obtain ⟨w4, hr4, hP4, hp4, hd4, hs4⟩ := commit_step e4 "feature work" w3 "Demo" _ hP3
      hb3 hok4
    rw [hp3] at hp4
    -- switchBranch("main")
    have hb4 : getBranch (getProject w4.store "Demo").branches "main"
        = PropLookup.own (mainBranch.pushCommit (commitObjOf e1 "init" none (getMap w.doc))) := by
      rw [hp4]; rfl
    have hrun5 := switchBranch_own H e5 "main" w4 "Demo" _ hP4 hb4
    have happly : afterHeadApply H w4
        (mainBranch.pushCommit (commitObjOf e1 "init" none (getMap w.doc)))
        = w4.apply H (getMap w.doc) := by
      have := headTruthy_newId e1
      simp [afterHeadApply, Branch.pushCommit, mainBranch, commitObjOf, this]
    refine ⟨w1, w2, w3, w4, _,
      mainBranch.pushCommit (commitObjOf e1 "init" none (getMap w.doc)),
      ((mainBranch.pushCommit (commitObjOf e1 "init" none (getMap w.doc))).forkAs
        "feature").pushCommit
        (commitObjOf e4 "feature work" (some (newId e1)) (getMap w3.doc)),
      commitObjOf e1 "init" none (getMap w.doc),
      hr1, hr2, hr3, hr4, ?_, ?_, ?_, ?_, ?_, ?_, ?_, ?_, ?_, hrun5, ?_⟩
    · rw [hp4]; rfl
    · rw [hp4]; rfl
    · rw [hp4]; rfl
    · rfl
    · rfl
    · rfl
    · rfl
    · rfl
    · simp only [Branch.pushCommit, commitObjOf, mainBranch, Branch.forkAs]
      intro h
      exact hids (Option.some.inj h)
    · show (afterHeadApply H w4
          (mainBranch.pushCommit (commitObjOf e1 "init" none (getMap w.doc)))).sent = _
      rw [happly]
      rfl
  · intro v v' e m P hvP hrun n hn
    cases hb : getBranch (getProject v.store P).branches (getProject v.store P).currentBranch with
    | own b =>
      obtain ⟨v2, h2, _, _, _, hfr⟩ := commit_other_branches e m v P b hvP hb
      rw [hrun] at h2
      cases h2
      exact hfr n hn
    | inherited =>
      have : commit e m v = none := by simp only [commit, hvP, hb]
      rw [this] at hrun
      cases hrun
    | undefined =>
      have : commit e m v = none := by simp only [commit, hvP, hb]
      rw [this] at hrun
      cases hrun

/-- Worked instance of the amended C14 on the wired document, whose captured
    snapshot is not empty. -/
theorem demo_scenario_witness :
    truthyName (getCurrentProject stashWorld.store) = some "Demo" ∧
    getRec stashWorld.store.records (getProjectKey "Demo") = none ∧
    newId (envAt 1) ≠ newId (envAt 4) ∧
    creationsOf (getMap stashWorld.doc) ≠ [] ∧
    ∃ w1 w2 w3 w4 w5 bm bf c1,
      commit (envAt 1) "init" stashWorld = some w1 ∧
      createBranch (envAt 2) "feature" w1 = some w2 ∧
      switchBranch plainHost (envAt 3) "feature" w2 = some w3 ∧
      commit (envAt 4) "feature work" w3 = some w4 ∧
      (getProject w4.store "Demo").branches.map Prod.fst = ["main", "feature"] ∧
      ownBranch (getProject w4.store "Demo").branches "main" = some bm ∧
      ownBranch (getProject w4.store "Demo").branches "feature" = some bf ∧
      bm.commits = [c1] ∧ c1.message = "init" ∧ c1.state = getMap stashWorld.doc ∧
      bf.commits.map (fun c => c.message) = ["init", "feature work"] ∧
      bf.commits.length = 2 ∧
      bm.head ≠ bf.head ∧
      switchBranch plainHost (envAt 5) "main" w4 = some w5 ∧
      w5.sent = w4.sent ++ goToState w4.doc c1.state :=
  ⟨by decide, by decide, by decide, by decide,
   (demo_scenario plainHost stashWorld (envAt 1) (envAt 2) (envAt 3) (envAt 4) (envAt 5)
      (by decide) (by decide) (by decide) (by decide) (by decide) (by decide) (by decide)).1⟩

/-! ## C17: the commit graph -/

theorem mapGet_mapSet (m : List (String × GraphEntry)) (k p : String) (v : GraphEntry) :
    mapGet (mapSet m k v) p = if k = p then some v else mapGet m p := by
  induction m with
  | nil => simp [mapSet, mapGet]
  | cons x xs ih =>
    obtain ⟨k0, v0⟩ := x
    by_cases h0 : k0 = k
    · subst h0
      by_cases hp : k0 = p <;> simp [mapSet, mapGet, hp]
    · by_cases hp : k0 = p
      · subst hp
        simp [mapSet, mapGet, h0, Ne.symm h0]
      · simp [mapSet, mapGet, h0, hp, ih]

theorem mapGet_mapPushChild (m : List (String × GraphEntry)) (k p x : String) :
    mapGet (mapPushChild m k x) p
      = if k = p then (mapGet m p).map (fun en => { en with children := en.children ++ [x] })
        else mapGet m p := by
  induction m with
  | nil => simp [mapPushChild, mapGet]
  | cons y ys ih =>
    obtain ⟨k0, v0⟩ := y
    by_cases h0 : k0 = k
    · subst h0
      by_cases hp : k0 = p <;> simp [mapPushChild, mapGet, hp]
    · by_cases hp : k0 = p
      · subst hp
        simp [mapPushChild, mapGet, h0, Ne.symm h0]
      · simp [mapPushChild, mapGet, h0, hp, ih]

/-- The entry `buildCommitMap` holds under `p`: the last commit with that id,
    without children. -/
theorem mapGet_foldl_set (commits : List Commit) :
    ∀ (m : List (String × GraphEntry)) (p : String),
      (∀ en, mapGet m p = some en → en.children = []) →
      ((mapGet (commits.foldl
          (fun m commit => mapSet m commit.id { commit := commit, children := [] }) m) p).isSome
        = ((mapGet m p).isSome || decide (p ∈ commits.map fun c => c.id))) ∧
      ∀ en, mapGet (commits.foldl
          (fun m commit => mapSet m commit.id { commit := commit, children := [] }) m) p = some en →
        en.children = [] := by
  induction commits with
  | nil => intro m p h; simpa using h
  | cons c cs ih =>
    intro m p h
    have hstep : ∀ en, mapGet (mapSet m c.id { commit := c, children := [] }) p = some en →
        en.children = [] := by
      intro en hen
      rw [mapGet_mapSet] at hen
      split at hen
      · cases hen; rfl
      · exact h en hen
    obtain ⟨h1, h2⟩ := ih (mapSet m c.id { commit := c, children := [] }) p hstep
    refine ⟨?_, h2⟩
    simp only [List.foldl_cons]
    rw [h1, mapGet_mapSet]
    by_cases hc : c.id = p
    · simp [hc]
    · have hc2 : ¬ p = c.id := fun h => hc h.symm
      simp [hc, hc2]

theorem mapHas_buildCommitMap (commits : List Commit) (p : String) :
    mapHas (buildCommitMap commits) p = decide (p ∈ commits.map fun c => c.id) := by
  have := (mapGet_foldl_set commits [] p (by intro en h; simp [mapGet] at h)).1
  simpa [mapHas, buildCommitMap, mapGet] using this

theorem childrenOf_buildCommitMap (commits : List Commit) (p : String) :
    childrenOf (buildCommitMap commits) p = [] := by
  have := (mapGet_foldl_set commits [] p (by intro en h; simp [mapGet] at h)).2
  unfold childrenOf
  split
  · rename_i en hen
    exact this en hen
  · rfl

theorem mapHas_linkChild (m : List (String × GraphEntry)) (c : Commit) (p : String) :
    mapHas (linkChild m c) p = mapHas m p := by
  unfold linkChild
  split
  · split
    · simp only [mapHas, mapGet_mapPushChild]
      split
      · cases mapGet m p <;> rfl
      · rfl
    · rfl
  · rfl

theorem childrenOf_linkChild (m : List (String × GraphEntry)) (c : Commit) (p : String) :
    childrenOf (linkChild m c) p
      = childrenOf m p ++ (if listedUnder m p c then [c.id] else []) := by
  unfold linkChild listedUnder
  cases hpar : c.parent with
  | none => simp
  | some q =>
    by_cases hq : q = p
    · subst hq
      by_cases hcond : (headTruthy (some q) && mapHas m q) = true
      · simp only [hcond, if_true, childrenOf, mapGet_mapPushChild, decide_True,
          Bool.true_and]
        have hhas : mapHas m q = true := by
          simp only [Bool.and_eq_true] at hcond
          exact hcond.2
        unfold mapHas at hhas
        cases hg : mapGet m q with
        | none => rw [hg] at hhas; cases hhas
        | some en => simp
      · have hf : (headTruthy (some q) && mapHas m q) = false := by
          cases h : (headTruthy (some q) && mapHas m q) with
          | true => exact absurd h hcond
          | false => rfl
        simp [hf]
    · have hne : ¬ some q = some p := fun h => hq (Option.some.inj h)
      by_cases hcond : (headTruthy (some q) && mapHas m q) = true
      · simp only [hcond, if_true, childrenOf, mapGet_mapPushChild, hq, if_false, hne,
          decide_False, Bool.false_and]
        simp
      · have hf : (headTruthy (some q) && mapHas m q) = false := by
          cases h : (headTruthy (some q) && mapHas m q) with
          | true => exact absurd h hcond
          | false => rfl
        simp [hf, hne]

theorem childrenOf_foldl_linkChild (cs : List Commit) :
    ∀ (m : List (String × GraphEntry)) (p : String),
      childrenOf (cs.foldl linkChild m) p
        = childrenOf m p ++ (cs.filter (listedUnder m p)).map fun c => c.id := by
  induction cs with
  | nil => intro m p; simp
  | cons c rest ih =>
    intro m p
    simp only [List.foldl_cons]
    rw [ih, childrenOf_linkChild]
    have hsame : listedUnder (linkChild m c) p = listedUnder m p := by
      funext d
      simp [listedUnder, mapHas_linkChild]
    rw [hsame]
    by_cases hl : listedUnder m p c = true
    · simp [hl, List.filter_cons]
    · have hf : listedUnder m p c = false := by
        cases h : listedUnder m p c with
        | true => exact absurd h hl
        | false => rfl
      simp [hf, List.filter_cons]

/-- The children `commitMap` lists under `p`, in log order. -/
theorem childrenOf_commitTree (commits : List Commit) (p : String) :
    childrenOf (commitTree commits) p
      = (commits.filter fun c =>
          decide (c.parent = some p) && (headTruthy (some p)
            && decide (p ∈ commits.map fun c => c.id))).map fun c => c.id := by
  unfold commitTree
  rw [childrenOf_foldl_linkChild, childrenOf_buildCommitMap, List.nil_append]
  congr 1
  apply List.filter_congr
  intro c _
  simp [listedUnder, mapHas_buildCommitMap]

theorem graphRows_eq_intersperse (nodes : List GraphNode) :
    graphRows nodes
      = List.intersperse
          (toUtf16 "<div style=\"margin: 0;\"><span style=\"color: #6366f1;\">‚îÇ</span></div>")
          (nodes.map fun n =>
            toUtf16 "<div style=\"margin: 4px 0;\">" ++ nodeLine n ++ toUtf16 "</div>") := by
  induction nodes with
  | nil => rfl
  | cons n rest ih =>
    cases rest with
    | nil => rfl
    | cons m rest2 =>
      simp only [graphRows, List.map_cons, List.intersperse] at ih ⊢
      rw [ih]

/-- C17, as the code has it: `buildGitGraph(commits, headId)` returns the empty
    string for an empty log; for a non-empty log the returned markup is the
    opening tag, one row per commit in the reverse of log order (newest first)
    with a connector between consecutive rows, and the closing tag, where the
    row of a commit carries its message between `<strong>` tags, the first 7
    UTF-16 units of its id, and the HEAD mark exactly when its id equals
    `headId`; the values of the rendering loop are one per commit in that order;
    and the child mapping lists `x` under `p` exactly when a commit with id `x`
    has parent `p`, `p` is not the empty string, and `p` is the id of a commit
    of the log. -/
theorem buildGitGraph_spec (fmt : Nat → String) (commits : List Commit)
    (headId : Option String) :
    buildGitGraph fmt [] headId = [] ∧
    (commits ≠ [] →
      buildGitGraph fmt commits headId
        = toUtf16 "<div style=\"font-family: monospace; line-height: 2;\">"
          ++ (List.intersperse
              (toUtf16
                "<div style=\"margin: 0;\"><span style=\"color: #6366f1;\">‚îÇ</span></div>")
              (commits.reverse.map fun c =>
                toUtf16 "<div style=\"margin: 4px 0;\">"
                  ++ toUtf16 "<span style=\"color: #6366f1;\">‚îÇ</span> "
                  ++ (if some c.id = headId then
                        toUtf16 "<span style=\"color: #4ade80; font-weight: bold;\">‚óè</span> "
                      else toUtf16 "<span style=\"color: #6366f1;\">‚óè</span> ")
                  ++ toUtf16 "<span style=\"color: "
                  ++ (if some c.id = headId then toUtf16 "#4ade80" else toUtf16 "#e0e0e0")
                  ++ toUtf16 "; cursor: pointer;\" class=\"vc-commit-graph\" data-id=\""
                  ++ toUtf16 c.id ++ toUtf16 "\">"
                  ++ toUtf16 "<strong>" ++ toUtf16 c.message ++ toUtf16 "</strong>"
                  ++ (if some c.id = headId then
                        toUtf16 " <span style=\"color: #4ade80;\">(HEAD)</span>"
                      else [])
                  ++ toUtf16
                      "<br><span style=\"margin-left: 24px; color: #888; font-size: 11px;\">"
                  ++ (toUtf16 c.id).take 7 ++ toUtf16 " - " ++ toUtf16 (fmt c.timestamp)
                  ++ toUtf16 "</span>"
                  ++ toUtf16 "</span>"
                  ++ toUtf16 "</div>")).flatten
          ++ toUtf16 "</div>") ∧
    (graphNodes fmt commits headId).length = commits.length ∧
    (graphNodes fmt commits headId).map (fun n => (n.id, n.message, n.shortId))
      = commits.reverse.map (fun c => (c.id, c.message, (toUtf16 c.id).take 7)) ∧
    (∀ n ∈ graphNodes fmt commits headId, n.isHead = true ↔ some n.id = headId) ∧
    (∀ p x, x ∈ childrenOf (commitTree commits) p ↔
      ∃ c ∈ commits, c.id = x ∧ c.parent = some p ∧ p ≠ "" ∧
        p ∈ commits.map fun c => c.id) := by
  refine ⟨rfl, ?_, by simp [graphNodes], ?_, ?_, ?_⟩
  · intro hne
    have hlen : commits.length ≠ 0 := by
      intro h
      exact hne (List.length_eq_zero.1 h)
    simp only [buildGitGraph, hlen, if_false, graphRows_eq_intersperse, graphNodes,
      List.map_map]
    refine congrArg (fun rows : List (List Nat) =>
      toUtf16 "<div style=\"font-family: monospace; line-height: 2;\">"
        ++ (List.intersperse
            (toUtf16
              "<div style=\"margin: 0;\"><span style=\"color: #6366f1;\">‚îÇ</span></div>")
            rows).flatten
        ++ toUtf16 "</div>") ?_
    apply List.map_congr_left
    intro c _
    simp only [Function.comp, nodeLine, substring07, decide_eq_true_eq]
    by_cases hh : some c.id = headId
    · simp only [hh, if_true, List.append_assoc]
    · simp only [hh, if_false, List.append_assoc]
  · simp [graphNodes, substring07, Function.comp_def]
  · intro n hn
    simp only [graphNodes, List.mem_map] at hn
    obtain ⟨c, _, rfl⟩ := hn
    simp
  · intro p x
    rw [childrenOf_commitTree]
    simp only [List.mem_map, List.mem_filter, Bool.and_eq_true, decide_eq_true_eq]
    have ht : headTruthy (some p) = true ↔ p ≠ "" := by simp [headTruthy]
    constructor
    · rintro ⟨c, ⟨hc, hpar, htr, hmem⟩, rfl⟩
      exact ⟨c, hc, rfl, hpar, ht.1 htr, hmem⟩
    · rintro ⟨c, hc, rfl, hpar, hp, hmem⟩
      exact ⟨c, ⟨hc, hpar, ht.2 hp, hmem⟩, rfl⟩

/-- Worked instance of the amended C17 on a log of three commits with head on
    the second. -/
theorem buildGitGraph_spec_witness :
    graphLog ≠ [] ∧
    (graphNodes (fun t => toString36 t) graphLog (some "bbbbbbbbb2")).map
        (fun n => (n.message, n.shortId, n.isHead))
      = [("stray", toUtf16 "ccccccc", false), ("work", toUtf16 "bbbbbbb", true),
         ("init", toUtf16 "aaaaaaa", false)] ∧
    childrenOf (commitTree graphLog) "aaaaaaaaa1" = ["bbbbbbbbb2"] ∧
    childrenOf (commitTree graphLog) "zzz" = [] ∧
    buildGitGraph (fun t => toString36 t) graphLog (some "bbbbbbbbb2")
      = toUtf16 "<div style=\"font-family: monospace; line-height: 2;\">"
        ++ (List.intersperse
            (toUtf16
              "<div style=\"margin: 0;\"><span style=\"color: #6366f1;\">‚îÇ</span></div>")
            (graphLog.reverse.map fun c =>
              toUtf16 "<div style=\"margin: 4px 0;\">"
                ++ toUtf16 "<span style=\"color: #6366f1;\">‚îÇ</span> "
                ++ (if some c.id = some "bbbbbbbbb2" then
                      toUtf16 "<span style=\"color: #4ade80; font-weight: bold;\">‚óè</span> "
                    else toUtf16 "<span style=\"color: #6366f1;\">‚óè</span> ")
                ++ toUtf16 "<span style=\"color: "
                ++ (if some c.id = some "bbbbbbbbb2" then toUtf16 "#4ade80"
                    else toUtf16 "#e0e0e0")
                ++ toUtf16 "; cursor: pointer;\" class=\"vc-commit-graph\" data-id=\""
                ++ toUtf16 c.id ++ toUtf16 "\">"
                ++ toUtf16 "<strong>" ++ toUtf16 c.message ++ toUtf16 "</strong>"
                ++ (if some c.id = some "bbbbbbbbb2" then
                      toUtf16 " <span style=\"color: #4ade80;\">(HEAD)</span>"
                    else [])
                ++ toUtf16
                    "<br><span style=\"margin-left: 24px; color: #888; font-size: 11px;\">"
                ++ (toUtf16 c.id).take 7 ++ toUtf16 " - " ++ toUtf16 (toString36 c.timestamp)
                ++ toUtf16 "</span>"
                ++ toUtf16 "</span>"
                ++ toUtf16 "</div>")).flatten
        ++ toUtf16 "</div>" :=
  ⟨by decide, by decide, by decide, by decide,
   (buildGitGraph_spec (fun t => toString36 t) graphLog (some "bbbbbbbbb2")).2.1 (by decide)⟩

/-- C17 as stated fails: in `emptyIdLog` the commit "b" has parent `""` and `""`
    is the id of a commit of the log, yet the child mapping lists nothing under
    `""`, because the test `commit.parent &&` skips an empty parent. -/
theorem child_mapping_counterexample :
    (∃ c ∈ emptyIdLog, c.id = "b" ∧ c.parent = some "" ∧
      "" ∈ emptyIdLog.map fun c => c.id) ∧
    mapHas (commitTree emptyIdLog) "" = true ∧
    childrenOf (commitTree emptyIdLog) "" = [] ∧
    "b" ∉ childrenOf (commitTree emptyIdLog) "" := by
  decide

/-- Sample values of `substring(0, 7)`: seven UTF-16 units, which may end
    inside a character outside the basic plane. -/
theorem substring07_samples :
    substring07 "abcdefghij" = toUtf16 "abcdefg" ∧
    substring07 "abc" = toUtf16 "abc" ∧
    substring07 "a😀😀😀bcd" = toUtf16 "a😀😀😀" ∧
    substring07 "😀😀😀😀" = toUtf16 "😀😀😀" ++ [55357] := by
  decide

/-! ## C1, C3, C8, C14 and C15 with a rejected store write -/

/-- C1 as stated fails: three `commit` calls on the empty branch of the fresh
    project "Demo", the store rejecting the write of the second, all announce
    "Committed", and the log has two entries. -/
theorem commit_sequence_counterexample :
    getBranch (getProject demoWorld.store "Demo").branches
      (getProject demoWorld.store "Demo").currentBranch = PropLookup.own mainBranch ∧
    ∃ w' b', commitAll demoWorld [(envAt 1, "a"), (rejectingEnv 2, "b"), (envAt 3, "c")]
        = some w' ∧
      getBranch (getProject w'.store "Demo").branches
        (getProject w'.store "Demo").currentBranch = PropLookup.own b' ∧
      b'.commits.length = 2 ∧
      b'.commits.map (fun c => c.message) = ["a", "c"] ∧
      w'.notes = [Note.success "Committed: a", Note.success "Committed: b",
        Note.success "Committed: c"] := by
  refine ⟨by decide, _, _, rfl, rfl, ?_, ?_, ?_⟩ <;> decide

/-- C3 as stated fails: "c1" is in the log of the current branch, whose head is
    "c2"; with the store rejecting the write, `checkout("c1")` sends its four
    messages and announces the checkout, and the persisted head is still
    "c2". -/
theorem checkout_rejected_counterexample :
    getBranch (getProject twoCommitWorld.store "Demo").branches
      (getProject twoCommitWorld.store "Demo").currentBranch
      = PropLookup.own twoCommitBranch ∧
    (∃ c ∈ twoCommitBranch.commits, c.id = "c1") ∧
    ∃ w', checkout plainHost (rejectingEnv 3) "c1" twoCommitWorld = some w' ∧
      ownBranch (getProject w'.store "Demo").branches "main" = some twoCommitBranch ∧
      twoCommitBranch.head ≠ some "c1" ∧
      w'.sent.length = 4 ∧
      w'.notes = [Note.success "Checked out: wired"] := by
  refine ⟨by decide, by decide, _, rfl, ?_, ?_, ?_, ?_⟩ <;> decide

/-- C8 as stated fails: with the store rejecting the write, `deleteStash(1)` on
    a stash of three entries announces the deletion and the persisted stash
    still has its three entries. -/
theorem deleteStash_rejected_counterexample :
    (getProject stashedWorld.store "Demo").stash = [oldEntry 1, oldEntry 2, oldEntry 3] ∧
    ∃ w', deleteStash (rejectingEnv 1) 1 stashedWorld = some w' ∧
      (getProject w'.store "Demo").stash = [oldEntry 1, oldEntry 2, oldEntry 3] ∧
      w'.notes = [Note.success "Deleted stash: old"] := by
  refine ⟨by decide, _, rfl, ?_, ?_⟩ <;> decide

/-- C14 as stated fails: in the example run with distinct ids, the store
    rejecting the write of `createBranch("feature")`, there is no branch
    `feature` afterwards, `switchBranch("feature")` reports "Branch not found",
    and `main` ends with the two commits "init" and "feature work". -/
theorem demo_scenario_counterexample :
    newId (envAt 1) ≠ newId (envAt 4) ∧
    ∃ w1 w2 w3 w4, commit (envAt 1) "init" demoWorld = some w1 ∧
      createBranch (rejectingEnv 2) "feature" w1 = some w2 ∧
      switchBranch plainHost (envAt 3) "feature" w2 = some w3 ∧
      commit (envAt 4) "feature work" w3 = some w4 ∧
      ownBranch (getProject w4.store "Demo").branches "feature" = none ∧
      (getProject w4.store "Demo").branches.map (fun kb => kb.2.commits.map fun c => c.message)
        = [["init", "feature work"]] ∧
      w4.notes = [Note.success "Committed: init", Note.success "Created branch: feature",
        Note.error "Branch not found", Note.success "Committed: feature work"] := by
  refine ⟨by decide, _, _, _, _, rfl, rfl, rfl, rfl, ?_, ?_, ?_⟩ <;> decide

/-- C15 as stated fails: with the store rejecting the write of the project
    list, deleting the current project "Demo" removes its record and the
    current-project pointer and announces the deletion, and "Demo" is still in
    the persisted project list. -/
theorem deleteProject_rejected_counterexample :
    getCurrentProject twoProjectWorld.store = some "Demo" ∧
    getProjects (deleteProject true (rejectingEnv 1) twoProjectWorld).store
      = ["Other", "Demo", "Third"] ∧
    "Demo" ∈ getProjects (deleteProject true (rejectingEnv 1) twoProjectWorld).store ∧
    getCurrentProject (deleteProject true (rejectingEnv 1) twoProjectWorld).store = none ∧
    getProject (deleteProject true (rejectingEnv 1) twoProjectWorld).store "Demo"
      = defaultProject "Demo" ∧
    (deleteProject true (rejectingEnv 1) twoProjectWorld).notes
      = [Note.success "Deleted project: Demo"] := by
  decide

end MapVersionControl
